import Mathlib

/-!
Verification of the crawl-and-rewrite engine of `save-rendered.js`
(habibjh88/html-copier).

The script is a site-mirroring crawler: it visits pages under a start URL,
saves rendered HTML, downloads discovered assets, and rewrites absolute URL
references in saved HTML and in downloaded CSS to relative local paths.

The embedding below models, faithfully to the JavaScript source:
  * `urlToLocalPath`, `makeRelativeForHtml`, `downloadAndSave` (pure parts,
    with the filesystem and network as explicit state / oracles);
  * the per-page asset loop, HTML rewrite loop, and CSS scan loop of the
    main IIFE;
  * the crawl frontier (`toVisit` queue, `visited` set, `normalize`,
    anchor admission) of the main while-loop.

Platform primitives used by the script (WHATWG `new URL`, Node `path.*`,
`decodeURIComponent`, `Buffer..toString(hex)`) are modelled for http(s)-style
URLs and POSIX paths: lower-casing of scheme and host, RFC 3986 relative
resolution with dot-segment removal, percent-decoding restricted to the ASCII
range, and UTF-8/hex on ASCII text, which is the range the WHATWG parser
produces for `pathname` and `search`.  Text is modelled as `List Char`
where replacement semantics matter, `String` elsewhere.
-/

set_option maxHeartbeats 1000000

namespace SaveRendered

/-! ## Characters and small string utilities -/

/-- Lower-case an ASCII letter, identity elsewhere (model of JS lower-casing
of URL scheme and host). -/
def asciiLower (c : Char) : Char :=
  if 'A' ≤ c ∧ c ≤ 'Z' then Char.ofNat (c.toNat + 32) else c

/-- The sixteen lower-case hexadecimal digit characters. -/
def hexDigitChar (n : Nat) : Char :=
  if n = 0 then '0' else if n = 1 then '1' else if n = 2 then '2'
  else if n = 3 then '3' else if n = 4 then '4' else if n = 5 then '5'
  else if n = 6 then '6' else if n = 7 then '7' else if n = 8 then '8'
  else if n = 9 then '9' else if n = 10 then 'a' else if n = 11 then 'b'
  else if n = 12 then 'c' else if n = 13 then 'd' else if n = 14 then 'e'
  else 'f'

/-- Value of a hexadecimal digit character, `none` if not a hex digit. -/
def hexVal (c : Char) : Option Nat :=
  if '0' ≤ c ∧ c ≤ '9' then some (c.toNat - '0'.toNat)
  else if 'a' ≤ c ∧ c ≤ 'f' then some (c.toNat - 'a'.toNat + 10)
  else if 'A' ≤ c ∧ c ≤ 'F' then some (c.toNat - 'A'.toNat + 10)
  else none

/-- Model of `Buffer.from(s).toString("hex")` on ASCII text: each character
becomes two lower-case hex digits of its code point. -/
def hexOfChars : List Char → List Char
  | [] => []
  | c :: cs => hexDigitChar (c.toNat / 16 % 16) :: hexDigitChar (c.toNat % 16) :: hexOfChars cs

/-- String wrapper for `hexOfChars`. -/
def hexOfString (s : String) : String := String.mk (hexOfChars s.data)

/-- Model of JS `decodeURIComponent`, restricted to the ASCII range:
`%XY` with two hex digits and value < 128 decodes to that character; a
malformed percent escape (or a non-ASCII byte, outside the modelled range)
fails, as `decodeURIComponent` throws `URIError`. -/
def percentDecode : List Char → Option (List Char)
  | [] => some []
  | '%' :: a :: b :: rest => do
    let ha ← hexVal a
    let hb ← hexVal b
    let v := ha * 16 + hb
    if v < 128 then
      let tail ← percentDecode rest
      pure (Char.ofNat v :: tail)
    else none
  | '%' :: _ => none
  | c :: rest => do
    let tail ← percentDecode rest
    pure (c :: tail)

/-- `decodeURIComponent` on strings. -/
def decodeURIComponent (s : String) : Option String :=
  (percentDecode s.data).map String.mk

/-- Kernel-computable model of `String.endsWith` for a single character. -/
def strEndsWith (s : String) (c : Char) : Bool := s.data.getLast? == some c

/-- Kernel-computable model of `String.startsWith`. -/
def strStartsWith (s pre : String) : Bool := pre.data.isPrefixOf s.data

/-- Drop the first character of a string (`s.slice(1)` in JS). -/
def strDropOne (s : String) : String := String.mk (s.data.drop 1)

/-- Split a character list on `/` (semantics of `String.splitOn "/"`). -/
def splitSlash : List Char → List (List Char)
  | [] => [[]]
  | c :: t =>
    if c = '/' then [] :: splitSlash t
    else
      match splitSlash t with
      | s :: rest => (c :: s) :: rest
      | [] => [[c]]

/-- Join with `/` (semantics of `String.intercalate "/"`). -/
def joinSlash : List (List Char) → List Char
  | [] => []
  | [s] => s
  | s :: rest => s ++ '/' :: joinSlash rest

/-! ## POSIX path model (Node `path` module on a POSIX host) -/

/-- Split a path into `/`-separated segments.  An absolute path `/a/b` yields
`["", "a", "b"]`; the root path `/` is represented by `[""]`. -/
def pathSegs (s : String) : List String :=
  if s = "/" then [""] else (splitSlash s.data).map String.mk

/-- Join segments back into a path string. -/
def segsToPath (l : List String) : String := String.mk (joinSlash (l.map String.data))

/-- Model of Node `path.dirname` for `/`-separated paths. -/
def dirname (s : String) : String :=
  let segs := pathSegs s
  if segs.length ≤ 1 then "."
  else
    let d := segs.dropLast
    if d = [""] then "/" else segsToPath d

/-- Model of Node `path.extname`: the final `.`-suffix of the basename,
empty when the basename has no dot after its first character, and empty for
the special name `..`. -/
def extname (s : String) : String :=
  let base := (pathSegs s).getLastD ""
  if base = ".." then ""
  else
    let cs := base.data
    let idxs := (List.range cs.length).filter fun i => cs.getD i ' ' = '.' ∧ 0 < i
    match idxs.getLast? with
    | none => ""
    | some i => String.mk (cs.drop i)

/-- Length of the longest common prefix of two segment lists. -/
def commonLen : List String → List String → Nat
  | a :: as, b :: bs => if a = b then commonLen as bs + 1 else 0
  | _, _ => 0

/-- Model of Node `path.relative(from, to)` for absolute, already-normalized
POSIX paths: drop the common segment prefix, emit one `..` per remaining
`from` segment, then the remaining `to` segments. -/
def relSegments (fromP toP : String) : List String :=
  let f := pathSegs fromP
  let t := pathSegs toP
  let c := commonLen f t
  List.replicate (f.length - c) ".." ++ t.drop c

/-- `makeRelativeForHtml` from the source: `path.relative` from the HTML
file's directory to the asset's local path, joined with forward slashes
(`rel.split(path.sep).join("/")`; on POSIX the split/join is the identity). -/
def makeRelativeForHtml (htmlFilePath assetLocalPath : String) : String :=
  segsToPath (relSegments (dirname htmlFilePath) assetLocalPath)

/-- Resolving a relative reference produced for an HTML file back against the
HTML file's directory: `..` pops a segment, any other segment is appended.
This is the reader-side semantics a browser applies to the rewritten
reference, used to state the round-trip property. -/
def resolveRelSegs (dir : List String) : List String → List String
  | [] => dir
  | seg :: rest =>
    if seg = ".." then resolveRelSegs dir.dropLast rest
    else resolveRelSegs (dir ++ [seg]) rest

/-- Model of Node `path.join(base, p)` for the shapes produced by
`urlToLocalPath` (no dot segments): concatenation with a single separator. -/
def pathJoin (base p : String) : String := base ++ "/" ++ p

/-! ## WHATWG URL model

A parsed URL.  `auth = true` models URLs with an authority (`scheme://host`);
`auth = false` models opaque-path URLs such as `data:` URIs.  `search` is
either empty or starts with `?`; `hash` is either empty or starts with `#`,
as in the DOM `URL` class. -/

structure URLRec where
  scheme : String
  auth : Bool
  host : String
  pathname : String
  search : String
  hash : String
deriving DecidableEq, Repr

def isSchemeStart (c : Char) : Bool :=
  ('a' ≤ c ∧ c ≤ 'z') ∨ ('A' ≤ c ∧ c ≤ 'Z')

def isSchemeChar (c : Char) : Bool :=
  isSchemeStart c ∨ ('0' ≤ c ∧ c ≤ '9') ∨ c = '+' ∨ c = '-' ∨ c = '.'

/-- Split off the `?query#hash` parts from a character list:
returns `(pathPart, search, hash)` where `search`/`hash` include their
leading `?`/`#` when nonempty. -/
def splitQueryHash (cs : List Char) : List Char × List Char × List Char :=
  let hashIdx := cs.findIdx (· = '#')
  let beforeHash := cs.take hashIdx
  let hashPart := cs.drop hashIdx
  let qIdx := beforeHash.findIdx (· = '?')
  let pathPart := beforeHash.take qIdx
  let qPart := beforeHash.drop qIdx
  (pathPart, if qPart = ['?'] then [] else qPart, hashPart)

/-- Parse an absolute URL string (model of `new URL(s)` without a base, for
URLs without userinfo or explicit port).  Scheme and host are lower-cased;
`scheme://host` with an empty path gets pathname `/`; a scheme not followed
by `//` yields an opaque-path URL. -/
def parseURL (s : String) : Option URLRec := do
  let cs := s.data
  match cs with
  | [] => none
  | c0 :: _ =>
    if !isSchemeStart c0 then none
    else
      let schemeLen := cs.takeWhile (fun c => isSchemeChar c) |>.length
      if schemeLen < cs.length ∧ cs.getD schemeLen ' ' = ':' then
        let scheme := String.mk ((cs.take schemeLen).map asciiLower)
        let rest := cs.drop (schemeLen + 1)
        match rest with
        | '/' :: '/' :: rest2 =>
          let hostChars := rest2.takeWhile fun c => c ≠ '/' ∧ c ≠ '?' ∧ c ≠ '#'
          if hostChars = [] then none
          else
            let afterHost := rest2.drop hostChars.length
            let (p, q, hsh) := splitQueryHash afterHost
            some { scheme := scheme, auth := true,
                   host := String.mk (hostChars.map asciiLower),
                   pathname := if p = [] then "/" else String.mk p,
                   search := String.mk q, hash := String.mk hsh }
        | _ =>
          let (p, q, hsh) := splitQueryHash rest
          some { scheme := scheme, auth := false, host := "",
                 pathname := String.mk p, search := String.mk q,
                 hash := String.mk hsh }
      else none

/-- Serialize a URL (model of `URL..toString()` / `href`). -/
def urlToString (u : URLRec) : String :=
  if u.auth then u.scheme ++ "://" ++ u.host ++ u.pathname ++ u.search ++ u.hash
  else u.scheme ++ ":" ++ u.pathname ++ u.search ++ u.hash

/-- RFC 3986 `remove_dot_segments` over the segments that follow the leading
slash; a trailing empty segment encodes a trailing slash. -/
def removeDots (out : List String) : List String → List String
  | [] => out
  | ["."] => out ++ [""]
  | "." :: rest => removeDots out rest
  | [".."] => out.dropLast ++ [""]
  | ".." :: rest => removeDots out.dropLast rest
  | seg :: rest => removeDots (out ++ [seg]) rest

/-- Merge a relative path reference against a base pathname (RFC 3986 §5.3:
the base path up to its last `/`, then the reference), then remove dot
segments.  The base pathname is absolute (starts with `/`). -/
def mergePaths (basePath : String) (ref : List Char) : String :=
  let baseCs := basePath.data
  let lastSlash := (baseCs.length - 1) - (baseCs.reverse.findIdx (· = '/'))
  let merged := baseCs.take (lastSlash + 1) ++ ref
  let segs := (splitSlash merged).map String.mk
  "/" ++ segsToPath (removeDots [] (segs.drop 1))

/-- Model of `new URL(ref, base)`: an absolute reference wins; `//…` is a
protocol-relative reference; `/…` is a path-absolute reference; `?…` and
`#…` replace the query / fragment; everything else is a relative path
reference, merged against the base path.  Relative references against an
opaque-path base fail, as the DOM constructor throws. -/
def resolveRef (ref : String) (base : URLRec) : Option URLRec :=
  match parseURL ref with
  | some u => some u
  | none =>
    match ref.data with
    | [] => some { base with hash := "" }
    | '/' :: '/' :: rest2 =>
      let hostChars := rest2.takeWhile fun c => c ≠ '/' ∧ c ≠ '?' ∧ c ≠ '#'
      if hostChars = [] then none
      else
        let afterHost := rest2.drop hostChars.length
        let (p, q, hsh) := splitQueryHash afterHost
        some { scheme := base.scheme, auth := true,
               host := String.mk (hostChars.map asciiLower),
               pathname := if p = [] then "/" else String.mk p,
               search := String.mk q, hash := String.mk hsh }
    | '/' :: _ =>
      if !base.auth then none
      else
        let (p, q, hsh) := splitQueryHash ref.data
        some { base with pathname := String.mk p, search := String.mk q,
                         hash := String.mk hsh }
    | '?' :: _ =>
      if !base.auth then none
      else
        let (_, q, hsh) := splitQueryHash ref.data
        some { base with search := String.mk q, hash := String.mk hsh }
    | '#' :: _ => some { base with hash := ref }
    | _ =>
      if !base.auth then none
      else
        let (p, q, hsh) := splitQueryHash ref.data
        some { base with pathname := mergePaths base.pathname p,
                         search := String.mk q, hash := String.mk hsh }

/-! ## `urlToLocalPath` -/

/-- The output root (`path.resolve(__dirname, "rendered-site")` in the
source), modelled as a fixed absolute POSIX path. -/
def OUTPUT_DIR : String := "/out/rendered-site"

/-- `urlToLocalPath` from the source: parse the URL, percent-decode the
pathname, map a trailing slash to an `index` segment, strip the leading
slash, and when the result has no extension but the URL has a query string,
append `_` and the hex encoding of the query.  `none` models the `null`
returned when `new URL` or `decodeURIComponent` throws. -/
def urlToLocalPath (url : String) : Option String := do
  let u ← parseURL url
  let p0 ← decodeURIComponent u.pathname
  let p1 := if strEndsWith p0 '/' then p0 ++ "index" else p0
  let p2 := if strStartsWith p1 "/" then strDropOne p1 else p1
  let p3 := if extname p2 = "" ∧ u.search ≠ "" then p2 ++ "_" ++ hexOfString u.search else p2
  pure (pathJoin OUTPUT_DIR p3)

/-! ## Literal global replacement

`String.prototype.replace` with a `g`-flagged regex whose pattern is an
escaped literal, and the `split(x).join(y)` idiom used in the CSS loop, both
replace every occurrence of a literal pattern scanning left to right without
rescanning replaced output.  `replaceAll` embeds that; the fuel argument
makes the recursion structural (fuel never runs out when it starts at the
text length). -/

def replaceAllAux (P R : List Char) : Nat → List Char → List Char
  | _, [] => []
  | 0, s => s
  | n + 1, c :: t =>
    if P ≠ [] ∧ P.isPrefixOf (c :: t) then
      R ++ replaceAllAux P R n (t.drop (P.length - 1))
    else c :: replaceAllAux P R n t

def replaceAll (P R s : List Char) : List Char := replaceAllAux P R s.length s

/-! `String.prototype.replace` with a string replacement substitutes
dollar patterns in the replacement text (ECMAScript `GetSubstitution`):
two dollars give a literal dollar, dollar-ampersand the matched text,
dollar-backquote the part of the subject before the match and
dollar-quote the part after it.  The regexes built at source lines 240 and
245 are escaped literals with no capture groups, so a dollar followed by a
digit (or anything else) stays literal and the matched text always equals
the pattern itself.  `expandDollar` performs the substitution for one
match; `jsReplace` is the global replacement using it, the before/after
context being taken from the original subject string. -/

def expandDollar (matched before after : List Char) : List Char → List Char
  | [] => []
  | c :: rest =>
    if c = '$' then
      match rest with
      | [] => [c]
      | d :: rest2 =>
        if d = '$' then '$' :: expandDollar matched before after rest2
        else if d = '&' then matched ++ expandDollar matched before after rest2
        else if d = '\x60' then before ++ expandDollar matched before after rest2
        else if d = '\x27' then after ++ expandDollar matched before after rest2
        else c :: expandDollar matched before after (d :: rest2)
    else c :: expandDollar matched before after rest

/-- `noDollarPat R` holds when `R` contains none of the recognised dollar
patterns, so that `expandDollar` inserts `R` verbatim. -/
def noDollarPat : List Char → Bool
  | [] => true
  | c :: rest =>
    if c = '$' then
      match rest with
      | [] => true
      | d :: rest2 =>
        if d = '$' ∨ d = '&' ∨ d = '\x60' ∨ d = '\x27' then false
        else noDollarPat (d :: rest2)
    else noDollarPat rest

/-- Global replacement with dollar substitution: `i` is the position of the
scan inside the original subject `orig`, used to split it into the
before/after context of each match. -/
def jsReplaceAux (P R orig : List Char) : Nat → Nat → List Char → List Char
  | _, _, [] => []
  | 0, _, s => s
  | n + 1, i, c :: t =>
    if P ≠ [] ∧ P.isPrefixOf (c :: t) then
      expandDollar P (orig.take i) (orig.drop (i + P.length)) R ++
        jsReplaceAux P R orig n (i + P.length) (t.drop (P.length - 1))
    else c :: jsReplaceAux P R orig n (i + 1) t

def jsReplace (P R s : List Char) : List Char := jsReplaceAux P R s s.length 0 s

/-! ## Filesystem, network and the asset pipeline -/

/-- Filesystem contents plus the log of URLs handed to `fetchImpl`.  A path
maps to the most recently written contents (head of the list wins). -/
structure Store where
  files : List (String × String)
  fetchLog : List String
deriving DecidableEq, Repr

/-- `downloadAndSave(url, assetLocalPath)` from the source, with the network
as an oracle `net` (`none` models a non-ok status or a network error).
Order of checks as in the code: falsy arguments, the `data:` rejection, the
skip-if-exists check, then the fetch and write. -/
def downloadAndSave (net : String → Option String) (url assetLocalPath : String)
    (st : Store) : Bool × Store :=
  if url = "" ∨ assetLocalPath = "" then (false, st)
  else if strStartsWith url "data:" then (false, st)
  else if (st.files.lookup assetLocalPath).isSome then (true, st)
  else
    let st1 : Store := { st with fetchLog := st.fetchLog ++ [url] }
    match net url with
    | none => (false, st1)
    | some body => (true, { st1 with files := (assetLocalPath, body) :: st1.files })

/-- JS object property assignment on a string-keyed object: update in place
if present, else append (insertion order preserved). -/
def addEntry (l : List (String × String)) (k v : String) : List (String × String) :=
  if (l.lookup k).isSome then l.map (fun e => if e.1 = k then (k, v) else e)
  else l ++ [(k, v)]

/-- The global `assetsDownloaded` set and the per-page `urlToLocal` map,
together with the store, as carried through one page visit. -/
structure AState where
  store : Store
  downloaded : List String
  urlToLocal : List (String × String)
deriving DecidableEq, Repr

/-- One iteration of the per-page asset loop (source lines 202–225): parse
the asset URL (a throw skips it), compute its local path (`null` skips it),
then `already || downloadAndSave(...)`, recording successes in
`assetsDownloaded` and the per-page `urlToLocal`. -/
def processAsset (net : String → Option String) (a : AState) (assetUrl : String) : AState :=
  match parseURL assetUrl with
  | none => a
  | some _ =>
    match urlToLocalPath assetUrl with
    | none => a
    | some localPath =>
      if assetUrl ∈ a.downloaded then
        { a with urlToLocal := addEntry a.urlToLocal assetUrl localPath }
      else
        let r := downloadAndSave net assetUrl localPath a.store
        if r.1 then
          { store := r.2, downloaded := a.downloaded ++ [assetUrl],
            urlToLocal := addEntry a.urlToLocal assetUrl localPath }
        else { a with store := r.2 }

/-- The whole asset loop over the extracted asset list. -/
def processAssets (net : String → Option String) (a : AState) (assets : List String) : AState :=
  assets.foldl (processAsset net) a

/-! ## HTML reference rewriting (source lines 229–247) -/

/-- The saved page path: the page pathname, `index.html` appended to a
trailing slash, joined (percent-decoded) under the output root.  `none` when
`decodeURIComponent` throws, which aborts the page visit. -/
def htmlPathOfPage (pagePathname : String) : Option String :=
  let p1 := if strEndsWith pagePathname '/' then pagePathname ++ "index.html" else pagePathname
  let p2 := if p1 = "/" then "/index.html" else p1
  (decodeURIComponent (strDropOne p2)).map (pathJoin OUTPUT_DIR)

/-- One iteration of the rewrite loop: replace every occurrence of the
absolute URL, then of its protocol-relative variant, with the relative
path.  The relative path `rel` is passed to `replace` unescaped, so dollar
patterns inside it are substituted (`jsReplace`).  `none` models the
`new URL(origUrl)` throw, which aborts the page. -/
def rewriteStep (htmlFilePath : String) (html : List Char) (e : String × String) :
    Option (List Char) :=
  let rel := (makeRelativeForHtml htmlFilePath e.2).data
  let h1 := jsReplace e.1.data rel html
  match parseURL e.1 with
  | none => none
  | some u =>
    some (jsReplace ("//" ++ u.host ++ u.pathname ++ u.search).data rel h1)

/-- The rewrite loop over the entries of the per-page `urlToLocal` map, in
insertion order. -/
def rewriteLoop (htmlFilePath : String) (entries : List (String × String))
    (html : List Char) : Option (List Char) :=
  entries.foldlM (rewriteStep htmlFilePath) html

/-! ## CSS `url(...)` scanning (source lines 254–293)

The regex `/url\((['\x22]?)(.*?)\1\)/g`: after `url(` an optional quote is
tried first; the lazy group takes the shortest run of non-newline characters
followed by the back-referenced quote and `)`; if no such run exists the
quote group backtracks to empty and the lazy group runs to the first `)`. -/

def jsDotChar (c : Char) : Bool := c ≠ '\n' ∧ c ≠ '\r'

/-- Shortest split `x ++ stopSeq ++ rest` of the input with `x` all
non-newline characters; `none` when no such split exists. -/
def lazyUntil (stopSeq : List Char) : List Char → Option (List Char × List Char)
  | [] => none
  | c :: t =>
    if stopSeq.isPrefixOf (c :: t) then some ([], (c :: t).drop stopSeq.length)
    else if jsDotChar c then (lazyUntil stopSeq t).map (fun p => (c :: p.1, p.2))
    else none

/-- Try to complete a match of the regex right after a literal `url(`:
returns the full matched text (`m[0]`), the captured reference (`m[2]`), and
the rest of the input after the match. -/
def matchUrlTail (cs : List Char) : Option (List Char × List Char × List Char) :=
  match cs with
  | [] => none
  | q :: t =>
    if q = '\'' ∨ q = '"' then
      match lazyUntil [q, ')'] t with
      | some (x, rest) => some ("url(".data ++ q :: x ++ [q, ')'], x, rest)
      | none =>
        match lazyUntil [')'] cs with
        | some (x, rest) => some ("url(".data ++ x ++ [')'], x, rest)
        | none => none
    else
      match lazyUntil [')'] cs with
      | some (x, rest) => some ("url(".data ++ x ++ [')'], x, rest)
      | none => none

/-- `matchAll` over the text: at each position try to match; on success
continue after the match, on failure advance one character. -/
def cssMatchesAux : Nat → List Char → List (List Char × List Char)
  | 0, _ => []
  | _, [] => []
  | n + 1, c :: t =>
    if "url(".data.isPrefixOf (c :: t) then
      match matchUrlTail ((c :: t).drop 4) with
      | some (m0, ref, rest) => (m0, ref) :: cssMatchesAux n rest
      | none => cssMatchesAux n t
    else cssMatchesAux n t

def cssMatches (s : List Char) : List (List Char × List Char) :=
  cssMatchesAux s.length s

/-- The filter `u.match(/\.css($|\?)/i)` on the keys of `urlToLocal`. -/
def isCssUrlAux : List Char → Bool
  | [] => false
  | c :: t =>
    (decide (((c :: t).take 4).map asciiLower = ".css".data) &&
      match t.drop 3 with
      | [] => true
      | '?' :: _ => true
      | _ => false) ||
    isCssUrlAux t

def isCssUrl (s : String) : Bool := isCssUrlAux s.data

/-- One `url(...)` match inside one stylesheet (source lines 263–288): an
empty reference is skipped; the reference is resolved against the
stylesheet's own URL (`new URL(ref, cssUrl)`, a throw skips the match); an
already-downloaded target with a recorded local path is rewritten, otherwise
the target is downloaded now and, on success, recorded and rewritten.  The
rewrite replaces every occurrence of the matched text with
`url("<relative path from the stylesheet's directory>")`. -/
def processCssMatch (net : String → Option String) (cssUrl cssLocal : String)
    (acc : List Char × AState) (m : List Char × List Char) : List Char × AState :=
  let ref := m.2
  if ref = [] then acc
  else
    match parseURL cssUrl with
    | none => acc
    | some base =>
      match resolveRef (String.mk ref) base with
      | none => acc
      | some u =>
        let abs := urlToString u
        if abs ∈ acc.2.downloaded then
          match acc.2.urlToLocal.lookup abs with
          | none => acc
          | some localFull =>
            let rel := segsToPath (relSegments (dirname cssLocal) localFull)
            (replaceAll m.1 ("url(\"" ++ rel ++ "\")").data acc.1, acc.2)
        else
          match urlToLocalPath abs with
          | none => acc
          | some localFull =>
            let r := downloadAndSave net abs localFull acc.2.store
            if r.1 then
              let rel := segsToPath (relSegments (dirname cssLocal) localFull)
              (replaceAll m.1 ("url(\"" ++ rel ++ "\")").data acc.1,
                { store := r.2, downloaded := acc.2.downloaded ++ [abs],
                  urlToLocal := addEntry acc.2.urlToLocal abs localFull })
            else (acc.1, { acc.2 with store := r.2 })

/-- One stylesheet of the scan list: read its saved file (a read failure
skips it), fold over the matches of its text, write the result back. -/
def processCss (net : String → Option String) (a : AState) (cssUrl : String) : AState :=
  match a.urlToLocal.lookup cssUrl with
  | none => a
  | some cssLocal =>
    match a.store.files.lookup cssLocal with
    | none => a
    | some content =>
      let r := (cssMatches content.data).foldl (processCssMatch net cssUrl cssLocal)
        (content.data, a)
      { r.2 with store :=
          { r.2.store with files := (cssLocal, String.mk r.1) :: r.2.store.files } }

/-- The CSS scan loop: the list of stylesheets is the snapshot of the keys
of `urlToLocal` taken before the loop (`const cssUrls = Object.keys(...)`),
so stylesheets discovered during the loop are not themselves scanned. -/
def cssScanLoop (net : String → Option String) (a : AState) : AState :=
  ((a.urlToLocal.map Prod.fst).filter isCssUrl).foldl (processCss net) a

/-! ## Crawl frontier (source lines 104–316) -/

structure CrawlConfig where
  start : URLRec
  hostname : String
  pathPrefix : String
  maxPages : Nat

/-- The configuration constants of the source: `START_URL`,
`START_HOSTNAME = new URL(START_URL).hostname`, `PATH_PREFIX`, `MAX_PAGES`. -/
def defaultConfig : CrawlConfig :=
  { start := { scheme := "https", auth := true, host := "themenectar.com",
               pathname := "/salient/signal/", search := "", hash := "" },
    hostname := "themenectar.com", pathPrefix := "/salient/", maxPages := 500 }

/-- `normalize` from the source: resolve against the start URL, clear the
fragment, collapse a run of trailing slashes (when the path is not the bare
root) to one, and serialize. -/
def normalize (cfg : CrawlConfig) (url : String) : Option String :=
  match resolveRef url cfg.start with
  | none => none
  | some u =>
    let u1 : URLRec := { u with hash := "" }
    let u2 : URLRec :=
      if strEndsWith u1.pathname '/' ∧ u1.pathname ≠ "/" then
        { u1 with pathname :=
            String.mk ((u1.pathname.data.reverse.dropWhile (· = '/')).reverse) ++ "/" }
      else u1
    some (urlToString u2)

/-- Anchor admission (source lines 300–308): resolve the href against the
page URL, reparse the serialized absolute form, require the start hostname
and the path prefix, then normalize.  Any parse failure rejects the href. -/
def admitAnchor (cfg : CrawlConfig) (nurl a : String) : Option String := do
  let base ← parseURL nurl
  let u ← resolveRef a base
  let v ← parseURL (urlToString u)
  if v.host = cfg.hostname ∧ strStartsWith v.pathname cfg.pathPrefix then
    normalize cfg (urlToString u)
  else none

/-- The enqueue loop over the anchors of a page: an admitted URL is pushed
only when not yet visited and not already pending. -/
def enqueueAnchors (cfg : CrawlConfig) (nurl : String) (visited : Finset String)
    (anchors : List String) (q : List String) : List String :=
  anchors.foldl (fun q a =>
    match admitAnchor cfg nurl a with
    | some norm => if norm ∉ visited ∧ norm ∉ q then q ++ [norm] else q
    | none => q) q

/-- The observable behaviour of one page visit: either the visit throws
(navigation error, timeout, or any exception while processing the page), or
it succeeds and yields the anchor hrefs found on the page.  Asset handling
is modelled separately (`processAssets`, `cssScanLoop`); it does not touch
the frontier. -/
inductive VisitOutcome
  | err
  | ok (anchors : List String)

structure CrawlSt where
  toVisit : List String
  visited : Finset String
deriving DecidableEq

/-- The loop guard `toVisit.length && visited.size < MAX_PAGES`. -/
def crawlGuard (cfg : CrawlConfig) (st : CrawlSt) : Prop :=
  st.toVisit ≠ [] ∧ st.visited.card < cfg.maxPages

instance (cfg : CrawlConfig) (st : CrawlSt) : Decidable (crawlGuard cfg st) := by
  unfold crawlGuard; infer_instance

/-- One iteration of the while-loop body: pop, normalize (a failure or an
already-visited URL just drops it), then visit.  On success the URL is
marked visited before the anchors are enqueued; on a throw the catch
handler marks it visited and nothing is enqueued. -/
def crawlStep (cfg : CrawlConfig) (outcome : String → VisitOutcome) (st : CrawlSt) : CrawlSt :=
  match st.toVisit with
  | [] => st
  | url :: rest =>
    match normalize cfg url with
    | none => ⟨rest, st.visited⟩
    | some nurl =>
      if nurl ∈ st.visited then ⟨rest, st.visited⟩
      else
        match outcome nurl with
        | .err => ⟨rest, insert nurl st.visited⟩
        | .ok anchors =>
          ⟨enqueueAnchors cfg nurl (insert nurl st.visited) anchors rest,
            insert nurl st.visited⟩

/-- The while-loop, fuel-indexed: while the guard holds, step. -/
def crawlN (cfg : CrawlConfig) (outcome : String → VisitOutcome) :
    Nat → CrawlSt → CrawlSt
  | 0, st => st
  | n + 1, st =>
    if crawlGuard cfg st then crawlN cfg outcome n (crawlStep cfg outcome st) else st

/-! ## Concrete instances used in the claims below -/

/-- The path component as `urlToLocalPath` processes it, before the query
suffix: `index` appended to a trailing slash, leading slash stripped. -/
def strippedPath (dp : String) : String :=
  let p1 := if strEndsWith dp '/' then dp ++ "index" else dp
  if strStartsWith p1 "/" then strDropOne p1 else p1

/-- A 5-page cap over an unbounded chain of same-site links: every page `p`
links to the fresh page `p ++ "a/"`. -/
def chainCfg : CrawlConfig :=
  { start := { scheme := "https", auth := true, host := "h", pathname := "/s/",
               search := "", hash := "" },
    hostname := "h", pathPrefix := "/s/", maxPages := 5 }

def chainOutcome : String → VisitOutcome := fun s => .ok [s ++ "a/"]

/-- The network and state for the nested-stylesheet scenario: the page
stylesheet `a.css` references `inner.css`, which itself references
`deep.png`; both inner resources are reachable over the network. -/
def c2net : String → Option String := fun u =>
  if u = "https://h/css/inner.css" then some "q:url(deep.png);"
  else if u = "https://h/css/deep.png" then some "PNG" else none

def c2state : AState :=
  { store := { files := [("/out/rendered-site/css/a.css", "b:url(inner.css);")],
               fetchLog := [] },
    downloaded := ["https://h/css/a.css"],
    urlToLocal := [("https://h/css/a.css", "/out/rendered-site/css/a.css")] }

/-- The network and state for the failing-fetch scenario: the page
stylesheet `b.css` references `img/x.png`, but every fetch fails. -/
def c7net : String → Option String := fun _ => none

def c7state : AState :=
  { store := { files := [("/out/rendered-site/css/b.css", "s:url(img/x.png);")],
               fetchLog := [] },
    downloaded := ["https://h/css/b.css"],
    urlToLocal := [("https://h/css/b.css", "/out/rendered-site/css/b.css")] }

/-! ## Properties of literal global replacement

`noCross P R` states that the pattern `P` cannot overlap the replacement
text `R` in any context: `P` does not occur inside `R`, no nonempty proper
right part of `P` is a prefix of `R`, no nonempty suffix of `R` is a prefix
of `P`, and `R` does not occur strictly inside `P`.  Under these conditions
global replacement of `P` by `R` leaves no occurrence of `P`, and global
replacement of any other pattern by `R` creates no occurrence of `P`. -/

def noCross (P R : List Char) : Prop :=
  P ≠ [] ∧ R ≠ [] ∧
  ¬ P <:+: R ∧
  (∀ k < P.length, 0 < k → ¬ P.drop k <+: R) ∧
  (∀ k < R.length, ¬ R.drop k <+: P) ∧
  (∀ k < P.length, 0 < k → k + R.length < P.length → ¬ R <+: P.drop k)

instance (P R : List Char) : Decidable (noCross P R) := by
  unfold noCross; infer_instance

/-! Auxiliary notions for the CSS scan claims. -/

/-- The replacement text the CSS rewrite builds for a target stored at
`lp`: `url("<path relative to the stylesheet's local directory>")`. -/
def replTextFor (cssLocal lp : String) : List Char :=
  ("url(\"" ++ segsToPath (relSegments (dirname cssLocal) lp) ++ "\")").data

/-- The absolute URLs the matches of a stylesheet can resolve to (empty
references and failing resolutions yield nothing). -/
def matchTargets (base : URLRec) (ms : List (List Char × List Char)) : List String :=
  ms.filterMap fun m =>
    if m.2 = [] then none else (resolveRef (String.mk m.2) base).map urlToString

/-- All replacement texts the scan of a stylesheet can produce — one per
recorded local path of a match target, recorded either in the initial map
or computed by `urlToLocalPath` — are overlap-free with the pattern
`m0`. -/
def cssNoCross (m0 : List Char) (cssLocal : String) (a : AState)
    (targets : List String) : Bool :=
  targets.all fun abs =>
    (match a.urlToLocal.lookup abs with
     | some lp => decide (noCross m0 (replTextFor cssLocal lp))
     | none => true) &&
    (match urlToLocalPath abs with
     | some lp => decide (noCross m0 (replTextFor cssLocal lp))
     | none => true)

/-- Invariant carried through the CSS match fold, for a fixed target `abs`
with computed local path `lp`: every map entry is an initial entry or
computed by `urlToLocalPath`; a downloaded `abs` has `lp` recorded; the
download set only grows from the initial state `a0`. -/
def CssInv (a0 : AState) (abs lp : String) (st : AState) : Prop :=
  (∀ k v, st.urlToLocal.lookup k = some v →
    a0.urlToLocal.lookup k = some v ∨ urlToLocalPath k = some v) ∧
  (abs ∈ st.downloaded → st.urlToLocal.lookup abs = some lp) ∧
  (∀ x ∈ a0.downloaded, x ∈ st.downloaded)

/-- The network and state for the two-reference scenario: the page
stylesheet `b.css` references `known.png`, already downloaded with a
recorded local path, and `img/x.png`, reachable over the network. -/
def c7netB : String → Option String := fun u =>
  if u = "https://h/css/img/x.png" then some "PNG" else none

def c7stateB : AState :=
  { store := { files := [("/out/rendered-site/css/b.css",
        "s:url(known.png);t:url(img/x.png);")], fetchLog := [] },
    downloaded := ["https://h/css/b.css", "https://h/css/known.png"],
    urlToLocal := [("https://h/css/b.css", "/out/rendered-site/css/b.css"),
      ("https://h/css/known.png", "/out/rendered-site/css/known.png")] }

theorem replaceAllAux_bound (P R : List Char) :
    ∀ n m s, s.length ≤ n → s.length ≤ m → replaceAllAux P R n s = replaceAllAux P R m s := by
  intro n
  induction n with
  | zero =>
    intro m s hn _
    have hs : s = [] := List.eq_nil_of_length_eq_zero (Nat.le_zero.mp hn)
    subst hs
    cases m <;> rfl
  | succ n ih =>
    intro m s hn hm
    cases s with
    | nil => cases m <;> rfl
    | cons c t =>
      cases m with
      | zero => simp at hm
      | succ m =>
        have ht1 : t.length ≤ n := by
          have := List.length_cons c t ▸ hn; omega
        have ht2 : t.length ≤ m := by
          have := List.length_cons c t ▸ hm; omega
        simp only [replaceAllAux]
        by_cases hg : P ≠ [] ∧ P.isPrefixOf (c :: t)
        · simp only [if_pos hg]
          congr 1
          apply ih
          · have := List.length_drop (P.length - 1) t; omega
          · have := List.length_drop (P.length - 1) t; omega
        · simp only [if_neg hg]
          congr 1
          exact ih m t ht1 ht2

theorem replaceAll_nil (P R : List Char) : replaceAll P R [] = [] := rfl

theorem replaceAll_cons_pos {P : List Char} (R : List Char) {c : Char} {t : List Char}
    (hP : P ≠ []) (hpre : P <+: (c :: t)) :
    replaceAll P R (c :: t) = R ++ replaceAll P R ((c :: t).drop P.length) := by
  have hb : P.isPrefixOf (c :: t) := List.isPrefixOf_iff_prefix.mpr hpre
  obtain ⟨k, hk⟩ : ∃ k, P.length = k + 1 := by
    cases hL : P.length with
    | zero => exact absurd (List.eq_nil_of_length_eq_zero hL) hP
    | succ k => exact ⟨k, rfl⟩
  have hdrop : (c :: t).drop P.length = t.drop (P.length - 1) := by
    rw [hk]; simp
  unfold replaceAll
  simp only [List.length_cons, replaceAllAux, if_pos (And.intro hP hb)]
  rw [hdrop]
  congr 1
  apply replaceAllAux_bound
  · have := List.length_drop (P.length - 1) t; omega
  · exact le_refl _

theorem replaceAll_cons_neg {P : List Char} (R : List Char) {c : Char} {t : List Char}
    (h : ¬(P ≠ [] ∧ P <+: (c :: t))) :
    replaceAll P R (c :: t) = c :: replaceAll P R t := by
  have hb : ¬(P ≠ [] ∧ P.isPrefixOf (c :: t)) := by
    intro ⟨h1, h2⟩; exact h ⟨h1, List.isPrefixOf_iff_prefix.mp h2⟩
  unfold replaceAll
  simp only [List.length_cons, replaceAllAux, if_neg hb]

/-- Unfolding equation of `noDollarPat` at two leading characters. -/
theorem noDollarPat_cons2 (c d : Char) (rest2 : List Char) :
    noDollarPat (c :: d :: rest2) =
      if c = '$' then
        (if d = '$' ∨ d = '&' ∨ d = '\x60' ∨ d = '\x27' then false
         else noDollarPat (d :: rest2))
      else noDollarPat (d :: rest2) := rfl

/-- Unfolding equation of `expandDollar` at two leading characters. -/
theorem expandDollar_cons2 (m b a : List Char) (c d : Char) (rest2 : List Char) :
    expandDollar m b a (c :: d :: rest2) =
      if c = '$' then
        (if d = '$' then '$' :: expandDollar m b a rest2
         else if d = '&' then m ++ expandDollar m b a rest2
         else if d = '\x60' then b ++ expandDollar m b a rest2
         else if d = '\x27' then a ++ expandDollar m b a rest2
         else c :: expandDollar m b a (d :: rest2))
      else c :: expandDollar m b a (d :: rest2) := rfl

/-- A replacement text without dollar patterns is inserted verbatim. -/
theorem expandDollar_id (m b a : List Char) :
    ∀ R : List Char, noDollarPat R = true → expandDollar m b a R = R := by
  intro R
  induction R with
  | nil => intro _; rfl
  | cons c rest ih =>
    cases rest with
    | nil =>
      intro _
      unfold expandDollar
      split
      · rfl
      · rfl
    | cons d rest2 =>
      intro h
      rw [expandDollar_cons2]
      rw [noDollarPat_cons2] at h
      by_cases hc : c = '$'
      · rw [if_pos hc] at h ⊢
        by_cases hd : d = '$' ∨ d = '&' ∨ d = '\x60' ∨ d = '\x27'
        · rw [if_pos hd] at h
          exact absurd h (by simp)
        · rw [if_neg hd] at h
          push_neg at hd
          rw [if_neg hd.1, if_neg hd.2.1, if_neg hd.2.2.1, if_neg hd.2.2.2, ih h]
      · rw [if_neg hc] at h ⊢
        rw [ih h]

/-- With a dollar-free replacement, `jsReplaceAux` is plain literal
replacement: the subject context is never consulted. -/
theorem jsReplaceAux_eq_replaceAllAux (P : List Char) {R : List Char} (orig : List Char)
    (hnd : noDollarPat R = true) :
    ∀ (n i : Nat) (s : List Char), jsReplaceAux P R orig n i s = replaceAllAux P R n s := by
  intro n
  induction n with
  | zero => intro i s; cases s <;> rfl
  | succ n ih =>
    intro i s
    cases s with
    | nil => rfl
    | cons c t =>
      unfold jsReplaceAux replaceAllAux
      by_cases hg : P ≠ [] ∧ P.isPrefixOf (c :: t)
      · rw [if_pos hg, if_pos hg,
          expandDollar_id P (orig.take i) (orig.drop (i + P.length)) R hnd, ih]
      · rw [if_neg hg, if_neg hg, ih]

theorem jsReplace_eq_replaceAll (P : List Char) {R : List Char}
    (hnd : noDollarPat R = true) (s : List Char) :
    jsReplace P R s = replaceAll P R s :=
  jsReplaceAux_eq_replaceAllAux P s hnd s.length 0 s

/-- Decompose a prefix of an append. -/
theorem pre_of_append {α : Type} [DecidableEq α] {Q x y : List α} (h : Q <+: x ++ y) :
    Q <+: x ∨ ∃ q, Q = x ++ q ∧ q <+: y := by
  by_cases hl : Q.length ≤ x.length
  · exact Or.inl (List.prefix_of_prefix_length_le h (List.prefix_append x y) hl)
  · right
    have hq : Q = (x ++ y).take Q.length := List.prefix_iff_eq_take.mp h
    have hq2 : Q = x.take Q.length ++ y.take (Q.length - x.length) := by
      rw [← List.take_append_eq_append_take]; exact hq
    rw [List.take_of_length_le (by omega)] at hq2
    exact ⟨_, hq2, List.take_prefix _ _⟩

/-- Decompose an infix of an append: inside the left part, inside the right
part, or straddling the boundary. -/
theorem inf_of_append {α : Type} [DecidableEq α] {P x y : List α} (h : P <:+: x ++ y) :
    P <:+: x ∨ P <:+: y ∨
      ∃ p₁ p₂, p₁ ++ p₂ = P ∧ p₁ ≠ [] ∧ p₂ ≠ [] ∧ p₁ <:+ x ∧ p₂ <+: y := by
  obtain ⟨s, t, hst⟩ := h
  have hlen : s.length + P.length + t.length = x.length + y.length := by
    have h0 := congrArg List.length hst
    simp only [List.length_append] at h0
    omega
  by_cases h1 : s.length + P.length ≤ x.length
  · left
    have hsp : s ++ P <+: x ++ y := ⟨t, hst⟩
    have hpre : s ++ P <+: x :=
      List.prefix_of_prefix_length_le hsp (List.prefix_append x y)
        (by simp only [List.length_append]; omega)
    obtain ⟨u, hu⟩ := hpre
    exact ⟨s, u, hu⟩
  · by_cases h2 : x.length ≤ s.length
    · right; left
      have hsp : s <+: x ++ y := ⟨P ++ t, by rw [← List.append_assoc]; exact hst⟩
      have hpre : x <+: s :=
        List.prefix_of_prefix_length_le (List.prefix_append x y) hsp h2
      obtain ⟨s', hs'⟩ := hpre
      refine ⟨s', t, ?_⟩
      have : x ++ (s' ++ P ++ t) = x ++ y := by
        rw [← hs'] at hst
        simpa [List.append_assoc] using hst
      exact List.append_cancel_left this
    · right; right
      push_neg at h1 h2
      refine ⟨x.drop s.length, y.take (s.length + P.length - x.length), ?_, ?_, ?_, ?_, ?_⟩
      · have hPt : P ++ t = x.drop s.length ++ y := by
          have hd := congrArg (List.drop s.length) hst
          rw [List.append_assoc] at hd
          rw [List.drop_left] at hd
          rw [List.drop_append_eq_append_drop] at hd
          rw [hd]
          congr 1
          have : s.length - x.length = 0 := by omega
          rw [this, List.drop_zero]
        have htake := congrArg (List.take P.length) hPt
        rw [List.take_left] at htake
        rw [List.take_append_eq_append_take] at htake
        have hx : (x.drop s.length).length = x.length - s.length := List.length_drop _ _
        have h3 : P.length - (x.drop s.length).length = s.length + P.length - x.length := by
          rw [hx]; omega
        rw [h3] at htake
        have h4 : (x.drop s.length).take P.length = x.drop s.length := by
          apply List.take_of_length_le
          rw [hx]; omega
        rw [h4] at htake
        exact htake.symm
      · have : (x.drop s.length).length = x.length - s.length := List.length_drop _ _
        intro hnil
        rw [hnil] at this
        simp at this
        omega
      · have hy : y.length = s.length + P.length + t.length - x.length := by omega
        have : (y.take (s.length + P.length - x.length)).length
            = min (s.length + P.length - x.length) y.length := List.length_take _ _
        intro hnil
        rw [hnil] at this
        simp at this
        omega
      · exact List.drop_suffix _ _
      · exact List.take_prefix _ _

/-- If a nonempty proper right part `Q` of `P` (`P = a ++ Q`, `a ≠ []`) is a
prefix of the output of replacing any pattern by `Rr`, then it is a prefix
of the input — the replacement cannot have contributed to it. -/
theorem pre_of_pre_replaceAll {P Rr Pp : List Char} (hc : noCross P Rr) :
    ∀ n s, s.length ≤ n → ∀ a Q, a ≠ [] → Q ≠ [] → a ++ Q = P →
      Q <+: replaceAll Pp Rr s → Q <+: s := by
  intro n
  induction n with
  | zero =>
    intro s hs a Q _ hQ _ hpre
    have hnil : s = [] := List.eq_nil_of_length_eq_zero (Nat.le_zero.mp hs)
    subst hnil
    rw [replaceAll_nil] at hpre
    exact absurd (List.prefix_nil.mp hpre) hQ
  | succ n ih =>
    intro s hs a Q ha hQ haQ hpre
    cases s with
    | nil =>
      rw [replaceAll_nil] at hpre
      exact absurd (List.prefix_nil.mp hpre) hQ
    | cons c t =>
      have htn : t.length ≤ n := by
        simp only [List.length_cons] at hs; omega
      by_cases hg : Pp ≠ [] ∧ Pp <+: (c :: t)
      · rw [replaceAll_cons_pos Rr hg.1 hg.2] at hpre
        exfalso
        have hk1 : 0 < a.length := List.length_pos.mpr ha
        have hkdrop : P.drop a.length = Q := by rw [← haQ]; exact List.drop_left a Q
        have hklt : a.length < P.length := by
          have h0 := congrArg List.length haQ
          simp only [List.length_append] at h0
          have := List.length_pos.mpr hQ
          omega
        rcases pre_of_append hpre with hQR | ⟨q', hq', hq'pre⟩
        · refine hc.2.2.2.1 a.length hklt hk1 ?_
          rw [hkdrop]
          exact hQR
        · by_cases hq'nil : q' = []
          · subst hq'nil
            rw [List.append_nil] at hq'
            refine hc.2.2.2.1 a.length hklt hk1 ?_
            rw [hkdrop, hq']
          · have hlen2 : a.length + Rr.length < P.length := by
              have h0 := congrArg List.length haQ
              have h1 := congrArg List.length hq'
              simp only [List.length_append] at h0 h1
              have := List.length_pos.mpr hq'nil
              omega
            refine hc.2.2.2.2.2 a.length (by omega) hk1 hlen2 ?_
            rw [hkdrop, hq']
            exact ⟨q', rfl⟩
      · rw [replaceAll_cons_neg Rr hg] at hpre
        cases Q with
        | nil => exact absurd rfl hQ
        | cons q0 Q' =>
          obtain ⟨hq0, hQ'⟩ := List.cons_prefix_cons.mp hpre
          by_cases hQ'nil : Q' = []
          · subst hQ'nil
            exact List.cons_prefix_cons.mpr ⟨hq0, List.nil_prefix⟩
          · have hrec := ih t htn (a ++ [q0]) Q' (by simp) hQ'nil
              (by rw [← haQ]; simp) hQ'
            exact List.cons_prefix_cons.mpr ⟨hq0, hrec⟩

/-- Replacing `P` by `R` globally leaves no occurrence of `P`, provided `P`
and `R` cannot overlap. -/
theorem not_inf_replaceAll_self {P R : List Char} (hc : noCross P R) :
    ∀ n s, s.length ≤ n → ¬ P <:+: replaceAll P R s := by
  intro n
  induction n with
  | zero =>
    intro s hs h
    have hnil : s = [] := List.eq_nil_of_length_eq_zero (Nat.le_zero.mp hs)
    subst hnil
    rw [replaceAll_nil] at h
    exact hc.1 (List.infix_nil.mp h)
  | succ n ih =>
    intro s hs
    cases s with
    | nil =>
      rw [replaceAll_nil]
      intro h
      exact hc.1 (List.infix_nil.mp h)
    | cons c t =>
      have htn : t.length ≤ n := by
        simp only [List.length_cons] at hs; omega
      by_cases hg : P ≠ [] ∧ P <+: (c :: t)
      · rw [replaceAll_cons_pos R hg.1 hg.2]
        intro h
        rcases inf_of_append h with hR | hrest | ⟨p₁, p₂, hp, hp1, _, hp1s, _⟩
        · exact hc.2.2.1 hR
        · have hdn : ((c :: t).drop P.length).length ≤ n := by
            rw [List.length_drop]
            have : 0 < P.length := List.length_pos.mpr hc.1
            simp only [List.length_cons]
            omega
          exact ih _ hdn hrest
        · have hk : R.length - p₁.length < R.length := by
            have h1 : 0 < p₁.length := List.length_pos.mpr hp1
            have h3 : 0 < R.length := List.length_pos.mpr hc.2.1
            omega
          have hdrop : R.drop (R.length - p₁.length) = p₁ :=
            (List.suffix_iff_eq_drop.mp hp1s).symm
          refine hc.2.2.2.2.1 (R.length - p₁.length) hk ?_
          rw [hdrop]
          exact ⟨p₂, hp⟩
      · rw [replaceAll_cons_neg R hg]
        intro h
        rcases List.infix_cons_iff.mp h with hP | hInf
        · cases P with
          | nil => exact absurd rfl hc.1
          | cons p0 P' =>
            obtain ⟨hp0, hP'⟩ := List.cons_prefix_cons.mp hP
            by_cases hP'nil : P' = []
            · subst hP'nil
              exact hg ⟨hc.1, List.cons_prefix_cons.mpr ⟨hp0, List.nil_prefix⟩⟩
            · have hQt := pre_of_pre_replaceAll hc n t htn [p0] P'
                (by simp) hP'nil rfl hP'
              exact hg ⟨hc.1, List.cons_prefix_cons.mpr ⟨hp0, hQt⟩⟩
        · exact ih t htn hInf

/-- Replacing any pattern by `Rr` globally creates no occurrence of `P` that
was not already present, provided `P` and `Rr` cannot overlap. -/
theorem not_inf_replaceAll_other {P Pp Rr : List Char} (hc : noCross P Rr) :
    ∀ n s, s.length ≤ n → ¬ P <:+: s → ¬ P <:+: replaceAll Pp Rr s := by
  intro n
  induction n with
  | zero =>
    intro s hs _ h
    have hnil : s = [] := List.eq_nil_of_length_eq_zero (Nat.le_zero.mp hs)
    subst hnil
    rw [replaceAll_nil] at h
    exact hc.1 (List.infix_nil.mp h)
  | succ n ih =>
    intro s hs hPs
    cases s with
    | nil =>
      rw [replaceAll_nil]
      intro h
      exact hc.1 (List.infix_nil.mp h)
    | cons c t =>
      have htn : t.length ≤ n := by
        simp only [List.length_cons] at hs; omega
      have hPt : ¬ P <:+: t := fun hx => hPs (hx.trans (List.suffix_cons c t).isInfix)
      by_cases hg : Pp ≠ [] ∧ Pp <+: (c :: t)
      · rw [replaceAll_cons_pos Rr hg.1 hg.2]
        intro h
        rcases inf_of_append h with hR | hrest | ⟨p₁, p₂, hp, hp1, _, hp1s, _⟩
        · exact hc.2.2.1 hR
        · have hdinf : ¬ P <:+: (c :: t).drop Pp.length := fun hd =>
            hPs (hd.trans (List.drop_suffix _ _).isInfix)
          have hdn : ((c :: t).drop Pp.length).length ≤ n := by
            rw [List.length_drop]
            have : 0 < Pp.length := List.length_pos.mpr hg.1
            simp only [List.length_cons]
            omega
          exact ih _ hdn hdinf hrest
        · have hk : Rr.length - p₁.length < Rr.length := by
            have h1 : 0 < p₁.length := List.length_pos.mpr hp1
            have h3 : 0 < Rr.length := List.length_pos.mpr hc.2.1
            omega
          have hdrop : Rr.drop (Rr.length - p₁.length) = p₁ :=
            (List.suffix_iff_eq_drop.mp hp1s).symm
          refine hc.2.2.2.2.1 (Rr.length - p₁.length) hk ?_
          rw [hdrop]
          exact ⟨p₂, hp⟩
      · rw [replaceAll_cons_neg Rr hg]
        intro h
        rcases List.infix_cons_iff.mp h with hP | hInf
        · cases P with
          | nil => exact absurd rfl hc.1
          | cons p0 P' =>
            obtain ⟨hp0, hP'⟩ := List.cons_prefix_cons.mp hP
            by_cases hP'nil : P' = []
            · subst hP'nil
              exact hPs (List.cons_prefix_cons.mpr ⟨hp0, List.nil_prefix⟩).isInfix
            · have hQt := pre_of_pre_replaceAll hc n t htn [p0] P'
                (by simp) hP'nil rfl hP'
              exact hPs (List.cons_prefix_cons.mpr ⟨hp0, hQt⟩).isInfix
        · exact ih t htn hPt hInf

theorem not_inf_replaceAll_self' {P R : List Char} (hc : noCross P R) (s : List Char) :
    ¬ P <:+: replaceAll P R s :=
  not_inf_replaceAll_self hc s.length s (le_refl _)

theorem not_inf_replaceAll_other' {P Pp Rr : List Char} (hc : noCross P Rr) {s : List Char}
    (hs : ¬ P <:+: s) : ¬ P <:+: replaceAll Pp Rr s :=
  not_inf_replaceAll_other hc s.length s (le_refl _) hs

/-! ## The rewrite loop leaves no mapped URL behind -/

theorem rewriteStep_eq {htmlPath : String} {e : String × String} {u : URLRec}
    (hp : parseURL e.1 = some u) (html : List Char) :
    rewriteStep htmlPath html e =
      some (jsReplace ("//" ++ u.host ++ u.pathname ++ u.search).data
        (makeRelativeForHtml htmlPath e.2).data
        (jsReplace e.1.data (makeRelativeForHtml htmlPath e.2).data html)) := by
  unfold rewriteStep
  rw [hp]

/-- When the relative path contains no dollar pattern, the raw `replace`
call degenerates to literal global replacement. -/
theorem rewriteStep_eq_noDollar {htmlPath : String} {e : String × String} {u : URLRec}
    (hp : parseURL e.1 = some u)
    (hnd : noDollarPat (makeRelativeForHtml htmlPath e.2).data = true) (html : List Char) :
    rewriteStep htmlPath html e =
      some (replaceAll ("//" ++ u.host ++ u.pathname ++ u.search).data
        (makeRelativeForHtml htmlPath e.2).data
        (replaceAll e.1.data (makeRelativeForHtml htmlPath e.2).data html)) := by
  rw [rewriteStep_eq hp html, jsReplace_eq_replaceAll _ hnd, jsReplace_eq_replaceAll _ hnd]

theorem rewriteStep_none {htmlPath : String} {e : String × String}
    (hp : parseURL e.1 = none) (html : List Char) :
    rewriteStep htmlPath html e = none := by
  unfold rewriteStep
  rw [hp]

theorem rewriteLoop_cons {htmlPath : String} {e : String × String}
    {rest : List (String × String)} {html : List Char} :
    rewriteLoop htmlPath (e :: rest) html =
      (rewriteStep htmlPath html e).bind (rewriteLoop htmlPath rest) := by
  unfold rewriteLoop
  rw [List.foldlM_cons]
  rfl

theorem rewriteLoop_total {htmlPath : String} :
    ∀ entries html, (∀ e ∈ entries, (parseURL e.1).isSome) →
      ∃ out, rewriteLoop htmlPath entries html = some out := by
  intro entries
  induction entries with
  | nil => intro html _; exact ⟨html, rfl⟩
  | cons e rest ih =>
    intro html hps
    obtain ⟨u, hu⟩ := Option.isSome_iff_exists.mp (hps e (List.mem_cons_self e rest))
    obtain ⟨out, hout⟩ := ih
      (jsReplace ("//" ++ u.host ++ u.pathname ++ u.search).data
        (makeRelativeForHtml htmlPath e.2).data
        (jsReplace e.1.data (makeRelativeForHtml htmlPath e.2).data html))
      (fun e' he' => hps e' (List.mem_cons_of_mem e he'))
    exact ⟨out, by rw [rewriteLoop_cons, rewriteStep_eq hu, Option.some_bind]; exact hout⟩

theorem rewriteLoop_preserves {htmlPath : String} {P : List Char} :
    ∀ entries (html out : List Char),
      (∀ e ∈ entries, noCross P (makeRelativeForHtml htmlPath e.2).data) →
      (∀ e ∈ entries, noDollarPat (makeRelativeForHtml htmlPath e.2).data = true) →
      ¬ P <:+: html → rewriteLoop htmlPath entries html = some out → ¬ P <:+: out := by
  intro entries
  induction entries with
  | nil =>
    intro html out _ _ hP hL
    have : html = out := by
      have : some html = some out := hL
      exact Option.some.inj this
    exact this ▸ hP
  | cons e rest ih =>
    intro html out hcross hnds hP hL
    rw [rewriteLoop_cons] at hL
    cases hstep : rewriteStep htmlPath html e with
    | none => rw [hstep] at hL; exact absurd hL (by simp)
    | some h1 =>
      rw [hstep, Option.some_bind] at hL
      have hcr := hcross e (List.mem_cons_self e rest)
      have hnd := hnds e (List.mem_cons_self e rest)
      have hh1 : ¬ P <:+: h1 := by
        cases hp : parseURL e.1 with
        | none => rw [rewriteStep_none hp] at hstep; exact absurd hstep (by simp)
        | some u =>
          rw [rewriteStep_eq_noDollar hp hnd] at hstep
          have h1eq := Option.some.inj hstep
          rw [← h1eq]
          exact not_inf_replaceAll_other' hcr (not_inf_replaceAll_other' hcr hP)
      exact ih h1 out (fun e' he' => hcross e' (List.mem_cons_of_mem e he'))
        (fun e' he' => hnds e' (List.mem_cons_of_mem e he')) hh1 hL

theorem rewriteLoop_kills {htmlPath : String} :
    ∀ entries (html out : List Char) (e₀ : String × String), e₀ ∈ entries →
      (∀ e ∈ entries, noCross e₀.1.data (makeRelativeForHtml htmlPath e.2).data) →
      (∀ e ∈ entries, noDollarPat (makeRelativeForHtml htmlPath e.2).data = true) →
      rewriteLoop htmlPath entries html = some out → ¬ e₀.1.data <:+: out := by
  intro entries
  induction entries with
  | nil => intro _ _ _ h; exact absurd h (List.not_mem_nil _)
  | cons e rest ih =>
    intro html out e₀ hmem hcross hnds hL
    rw [rewriteLoop_cons] at hL
    cases hstep : rewriteStep htmlPath html e with
    | none => rw [hstep] at hL; exact absurd hL (by simp)
    | some h1 =>
      rw [hstep, Option.some_bind] at hL
      rcases List.mem_cons.mp hmem with he | he
      · subst he
        have hcr := hcross e₀ (List.mem_cons_self e₀ rest)
        have hnd := hnds e₀ (List.mem_cons_self e₀ rest)
        have hh1 : ¬ e₀.1.data <:+: h1 := by
          cases hp : parseURL e₀.1 with
          | none => rw [rewriteStep_none hp] at hstep; exact absurd hstep (by simp)
          | some u =>
            rw [rewriteStep_eq_noDollar hp hnd] at hstep
            have h1eq := Option.some.inj hstep
            rw [← h1eq]
            exact not_inf_replaceAll_other' hcr (not_inf_replaceAll_self' hcr html)
        exact rewriteLoop_preserves rest h1 out
          (fun e' he' => hcross e' (List.mem_cons_of_mem e₀ he'))
          (fun e' he' => hnds e' (List.mem_cons_of_mem e₀ he')) hh1 hL
      · exact ih h1 out e₀ he (fun e' he' => hcross e' (List.mem_cons_of_mem e he'))
          (fun e' he' => hnds e' (List.mem_cons_of_mem e he')) hL

/-! ## Relative paths resolve back to the asset path -/

theorem commonLen_le_left : ∀ a b : List String, commonLen a b ≤ a.length := by
  intro a
  induction a with
  | nil => intro b; cases b <;> simp [commonLen]
  | cons x xs ih =>
    intro b
    cases b with
    | nil => simp [commonLen]
    | cons y ys =>
      unfold commonLen
      by_cases h : x = y
      · rw [if_pos h]; simp only [List.length_cons]; exact Nat.succ_le_succ (ih ys)
      · rw [if_neg h]; exact Nat.zero_le _

theorem commonLen_le_right : ∀ a b : List String, commonLen a b ≤ b.length := by
  intro a
  induction a with
  | nil => intro b; cases b <;> simp [commonLen]
  | cons x xs ih =>
    intro b
    cases b with
    | nil => simp [commonLen]
    | cons y ys =>
      unfold commonLen
      by_cases h : x = y
      · rw [if_pos h]; simp only [List.length_cons]; exact Nat.succ_le_succ (ih ys)
      · rw [if_neg h]; exact Nat.zero_le _

theorem take_commonLen_eq : ∀ a b : List String,
    a.take (commonLen a b) = b.take (commonLen a b) := by
  intro a
  induction a with
  | nil => intro b; cases b <;> simp [commonLen]
  | cons x xs ih =>
    intro b
    cases b with
    | nil => simp [commonLen]
    | cons y ys =>
      unfold commonLen
      by_cases h : x = y
      · rw [if_pos h]; simp only [List.take_succ_cons, h]; rw [ih ys]
      · rw [if_neg h]; simp

theorem resolveRelSegs_ups : ∀ (m : Nat) (dir rest : List String),
    resolveRelSegs dir (List.replicate m ".." ++ rest) =
      resolveRelSegs (dir.take (dir.length - m)) rest := by
  intro m
  induction m with
  | zero => intro dir rest; simp [List.take_length]
  | succ m ih =>
    intro dir rest
    rw [List.replicate_succ, List.cons_append]
    show resolveRelSegs dir (".." :: (List.replicate m ".." ++ rest)) = _
    unfold resolveRelSegs
    rw [if_pos rfl]
    rw [ih]
    have harg : dir.dropLast.take (dir.dropLast.length - m) = dir.take (dir.length - (m + 1)) := by
      rw [List.dropLast_eq_take, List.take_take]
      simp only [List.length_take]
      congr 1
      omega
    rw [harg]
    cases rest <;> rfl

theorem resolveRelSegs_clean : ∀ (rest dir : List String), ".." ∉ rest →
    resolveRelSegs dir rest = dir ++ rest := by
  intro rest
  induction rest with
  | nil => intro dir _; simp [resolveRelSegs]
  | cons seg rest ih =>
    intro dir hmem
    have hseg : seg ≠ ".." := fun h => hmem (h ▸ List.mem_cons_self seg rest)
    unfold resolveRelSegs
    rw [if_neg hseg, ih _ (fun h => hmem (List.mem_cons_of_mem seg h))]
    simp

/-- The relative path computed against the HTML file's directory resolves
back to the asset's local path (provided the local path contains no `..`
segments, which would be interpreted by the resolver). -/
theorem relSegments_round {fromP toP : String} (hto : ".." ∉ pathSegs toP) :
    resolveRelSegs (pathSegs fromP) (relSegments fromP toP) = pathSegs toP := by
  unfold relSegments
  rw [resolveRelSegs_ups]
  have hc1 : commonLen (pathSegs fromP) (pathSegs toP) ≤ (pathSegs fromP).length :=
    commonLen_le_left _ _
  have heq : (pathSegs fromP).length - ((pathSegs fromP).length -
      commonLen (pathSegs fromP) (pathSegs toP)) = commonLen (pathSegs fromP) (pathSegs toP) := by
    omega
  rw [heq]
  rw [resolveRelSegs_clean _ _ (fun h => hto (List.mem_of_mem_drop h))]
  rw [take_commonLen_eq]
  exact List.take_append_drop _ _

/-! ## Injectivity of the hex query suffix -/

theorem hexDigitChar_inj : ∀ a < 16, ∀ b < 16, hexDigitChar a = hexDigitChar b → a = b := by
  decide

theorem char_eq_of_toNat_eq {c d : Char} (h : c.toNat = d.toNat) : c = d := by
  have h1 : Char.ofNat c.toNat = Char.ofNat d.toNat := congrArg Char.ofNat h
  rwa [Char.ofNat_toNat, Char.ofNat_toNat] at h1

theorem hexOfChars_inj : ∀ s1 s2 : List Char,
    (∀ c ∈ s1, c.toNat < 256) → (∀ c ∈ s2, c.toNat < 256) →
    hexOfChars s1 = hexOfChars s2 → s1 = s2 := by
  intro s1
  induction s1 with
  | nil =>
    intro s2 _ _ h
    cases s2 with
    | nil => rfl
    | cons d ds => simp [hexOfChars] at h
  | cons c cs ih =>
    intro s2 h1 h2 h
    cases s2 with
    | nil => simp [hexOfChars] at h
    | cons d ds =>
      simp only [hexOfChars, List.cons.injEq] at h
      obtain ⟨ha, hb, hrest⟩ := h
      have hc : c.toNat < 256 := h1 c (List.mem_cons_self c cs)
      have hd : d.toNat < 256 := h2 d (List.mem_cons_self d ds)
      have e1 : c.toNat / 16 % 16 = d.toNat / 16 % 16 :=
        hexDigitChar_inj _ (Nat.mod_lt _ (by omega)) _ (Nat.mod_lt _ (by omega)) ha
      have e2 : c.toNat % 16 = d.toNat % 16 :=
        hexDigitChar_inj _ (Nat.mod_lt _ (by omega)) _ (Nat.mod_lt _ (by omega)) hb
      have : c.toNat = d.toNat := by omega
      have hcd : c = d := char_eq_of_toNat_eq this
      rw [hcd, ih ds (fun x hx => h1 x (List.mem_cons_of_mem c hx))
        (fun x hx => h2 x (List.mem_cons_of_mem d hx)) hrest]

/-! ## Shape of `urlToLocalPath` -/

theorem urlToLocalPath_eq {url : String} {u : URLRec} {dp : String}
    (hp : parseURL url = some u) (hdec : decodeURIComponent u.pathname = some dp) :
    urlToLocalPath url = some (pathJoin OUTPUT_DIR
      (if extname (strippedPath dp) = "" ∧ u.search ≠ ""
       then strippedPath dp ++ "_" ++ hexOfString u.search
       else strippedPath dp)) := by
  simp only [urlToLocalPath, strippedPath, hp, hdec, Option.bind_eq_bind, Option.some_bind,
    Option.pure_def]

theorem pathJoin_ne_empty (x : String) : pathJoin OUTPUT_DIR x ≠ "" := by
  intro h
  have hd := congrArg String.data h
  simp only [pathJoin, String.data_append] at hd
  have h1 := (List.append_eq_nil.mp ((List.append_eq_nil.mp hd).1)).2
  exact absurd h1 (by decide)

theorem string_ne_of_data_ne {a b : String} (h : a.data ≠ b.data) : a ≠ b := by
  intro hab
  exact h (congrArg String.data hab)

theorem pathJoin_inj {x y : String} (h : x ≠ y) : pathJoin OUTPUT_DIR x ≠ pathJoin OUTPUT_DIR y := by
  intro hj
  apply h
  have hd := congrArg String.data hj
  simp only [pathJoin, String.data_append] at hd
  have hc := List.append_cancel_left (List.append_cancel_left
    ((List.append_assoc _ _ _).symm.trans (hd.trans (List.append_assoc _ _ _))))
  cases x; cases y
  exact congrArg String.mk hc

/-- C5: for two parseable URLs whose decoded paths are identical and carry no
file extension but whose (ASCII) query strings differ, `urlToLocalPath`
yields two distinct local paths: the query is folded into the path as the
`_`-prefixed hex suffix. -/
theorem urlToLocalPath_query_distinct (s1 s2 : String) (u1 u2 : URLRec) (dp : String)
    (hp1 : parseURL s1 = some u1) (hp2 : parseURL s2 = some u2)
    (hdec1 : decodeURIComponent u1.pathname = some dp)
    (hdec2 : decodeURIComponent u2.pathname = some dp)
    (hext : extname (strippedPath dp) = "")
    (hq : u1.search ≠ u2.search)
    (ha1 : ∀ c ∈ u1.search.data, c.toNat < 128)
    (ha2 : ∀ c ∈ u2.search.data, c.toNat < 128) :
    ∃ l1 l2, urlToLocalPath s1 = some l1 ∧ urlToLocalPath s2 = some l2 ∧ l1 ≠ l2 := by
  refine ⟨_, _, urlToLocalPath_eq hp1 hdec1, urlToLocalPath_eq hp2 hdec2, ?_⟩
  apply pathJoin_inj
  by_cases h1 : u1.search = ""
  · have h2 : u2.search ≠ "" := fun h => hq (h1.trans h.symm)
    rw [if_neg (by simp [h1]), if_pos ⟨hext, h2⟩]
    apply string_ne_of_data_ne
    intro hd
    have hlen := congrArg List.length hd
    simp only [String.data_append, List.length_append, List.length_singleton] at hlen
    omega
  · by_cases h2 : u2.search = ""
    · rw [if_pos ⟨hext, h1⟩, if_neg (by simp [h2])]
      apply string_ne_of_data_ne
      intro hd
      have hlen := congrArg List.length hd
      simp only [String.data_append, List.length_append, List.length_singleton] at hlen
      omega
    · rw [if_pos ⟨hext, h1⟩, if_pos ⟨hext, h2⟩]
      apply string_ne_of_data_ne
      intro hd
      simp only [String.data_append] at hd
      rw [List.append_assoc, List.append_assoc] at hd
      have h3 := List.append_cancel_left hd
      have h4 := List.append_cancel_left h3
      have h5 : (hexOfString u1.search).data = (hexOfString u2.search).data := h4
      simp only [hexOfString] at h5
      have h6 := hexOfChars_inj u1.search.data u2.search.data
        (fun c hc => lt_trans (ha1 c hc) (by norm_num))
        (fun c hc => lt_trans (ha2 c hc) (by norm_num)) h5
      apply hq
      have he1 : u1.search = String.mk u1.search.data := rfl
      have he2 : u2.search = String.mk u2.search.data := rfl
      rw [he1, he2, h6]

/-- A successful `downloadAndSave` leaves a file at the asset's local path:
either it already existed, or the fetched body was just written there. -/
theorem downloadAndSave_true_file {net : String → Option String} {url lp : String}
    {st st1 : Store} (h : downloadAndSave net url lp st = (true, st1)) :
    (st1.files.lookup lp).isSome := by
  unfold downloadAndSave at h
  split at h
  · exact absurd (congrArg Prod.fst h) (by simp)
  · split at h
    · exact absurd (congrArg Prod.fst h) (by simp)
    · split at h
      · rename_i hex2
        have h2 := congrArg Prod.snd h
        simp only at h2
        rw [← h2]
        exact hex2
      · split at h
        · exact absurd (congrArg Prod.fst h) (by simp)
        · have h2 := congrArg Prod.snd h
          simp only at h2
          rw [← h2]
          simp [List.lookup]

/-- C10: for two parseable URLs whose decoded paths are identical and end in
a file extension, the query string is dropped: `urlToLocalPath` returns the
same local path, and (skip-if-exists) once the first variant's download
succeeded, a call for the second variant is a no-op success with no
network fetch. -/
theorem urlToLocalPath_ext_query_dropped (s1 s2 : String) (u1 u2 : URLRec) (dp : String)
    (hp1 : parseURL s1 = some u1) (hp2 : parseURL s2 = some u2)
    (hdec1 : decodeURIComponent u1.pathname = some dp)
    (hdec2 : decodeURIComponent u2.pathname = some dp)
    (hext : extname (strippedPath dp) ≠ "")
    (hd2 : ¬ strStartsWith s2 "data:") (hs2 : s2 ≠ "") :
    urlToLocalPath s1 = urlToLocalPath s2 ∧
    ∀ (net : String → Option String) (lp : String) (st st1 : Store),
      urlToLocalPath s1 = some lp →
      downloadAndSave net s1 lp st = (true, st1) →
      downloadAndSave net s2 lp st1 = (true, st1) := by
  constructor
  · rw [urlToLocalPath_eq hp1 hdec1, urlToLocalPath_eq hp2 hdec2]
    rw [if_neg (by simp [hext]), if_neg (by simp [hext])]
  · intro net lp st st1 hlp hfirst
    have hlpne : lp ≠ "" := by
      rw [urlToLocalPath_eq hp1 hdec1] at hlp
      intro h
      have h2 := Option.some.inj hlp
      rw [h] at h2
      exact pathJoin_ne_empty _ h2
    have hfile : (st1.files.lookup lp).isSome := downloadAndSave_true_file hfirst
    unfold downloadAndSave
    rw [if_neg (by simp [hs2, hlpne]), if_neg hd2, if_pos hfile]

/-! ## `downloadAndSave`: `data:` rejection and idempotence -/

/-- A `data:` URL is rejected before any other check: no fetch, no write,
state unchanged, result `false`. -/
theorem downloadAndSave_data {url : String} (hd : strStartsWith url "data:") :
    ∀ (net : String → Option String) (lp : String) (st : Store),
      downloadAndSave net url lp st = (false, st) := by
  intro net lp st
  unfold downloadAndSave
  by_cases h0 : url = "" ∨ lp = ""
  · rw [if_pos h0]
  · rw [if_neg h0, if_pos hd]

theorem urlToLocalPath_url_ne_empty {url lp : String} (h : urlToLocalPath url = some lp) :
    url ≠ "" := by
  intro hurl
  subst hurl
  simp [urlToLocalPath, parseURL] at h

theorem urlToLocalPath_lp_ne_empty {url lp : String} (h : urlToLocalPath url = some lp) :
    lp ≠ "" := by
  unfold urlToLocalPath at h
  cases hp : parseURL url with
  | none => rw [hp] at h; simp at h
  | some u =>
    rw [hp] at h
    simp only [Option.bind_eq_bind, Option.some_bind] at h
    cases hdec : decodeURIComponent u.pathname with
    | none => rw [hdec] at h; simp at h
    | some dp =>
      rw [hdec] at h
      simp only [Option.some_bind, Option.pure_def] at h
      have h2 := Option.some.inj h
      intro hlp
      rw [hlp] at h2
      exact pathJoin_ne_empty _ h2

/-- C6 (amended): for a URL that does not begin with `data:` and whose local
path is computed, a file already present at that path makes the call an
immediate no-op success — no fetch, no write, state unchanged; and after any
successful call, a repeat call is a no-op success, the first call having
fetched exactly once when the file did not pre-exist. -/
theorem downloadAndSave_idempotent (net : String → Option String) (url lp : String)
    (st : Store) (hl : urlToLocalPath url = some lp) (hd : ¬ strStartsWith url "data:") :
    ((st.files.lookup lp).isSome → downloadAndSave net url lp st = (true, st)) ∧
    (∀ st1 : Store, downloadAndSave net url lp st = (true, st1) →
      downloadAndSave net url lp st1 = (true, st1) ∧
      (¬ (st.files.lookup lp).isSome → st1.fetchLog = st.fetchLog ++ [url])) := by
  have hu : url ≠ "" := urlToLocalPath_url_ne_empty hl
  have hlp : lp ≠ "" := urlToLocalPath_lp_ne_empty hl
  have hfalsy : ¬ (url = "" ∨ lp = "") := by simp [hu, hlp]
  constructor
  · intro hex
    unfold downloadAndSave
    rw [if_neg hfalsy, if_neg hd, if_pos hex]
  · intro st1 hfirst
    constructor
    · have hfile : (st1.files.lookup lp).isSome := downloadAndSave_true_file hfirst
      unfold downloadAndSave
      rw [if_neg hfalsy, if_neg hd, if_pos hfile]
    · intro hnex
      unfold downloadAndSave at hfirst
      rw [if_neg hfalsy, if_neg hd, if_neg hnex] at hfirst
      cases hnet : net url with
      | none =>
        rw [hnet] at hfirst
        exact absurd (congrArg Prod.fst hfirst) (by simp)
      | some body =>
        rw [hnet] at hfirst
        have h2 := congrArg Prod.snd hfirst
        simp only at h2
        rw [← h2]

/-! ## `data:` URLs never enter the asset maps -/

theorem lookup_map_update_ne {k k' v : String} (h : k' ≠ k) :
    ∀ l : List (String × String),
      (l.map (fun e => if e.1 = k then (k, v) else e)).lookup k' = l.lookup k' := by
  intro l
  induction l with
  | nil => rfl
  | cons e es ih =>
    obtain ⟨a, b⟩ := e
    by_cases he : a = k
    · simp only [List.map_cons]
      rw [if_pos (show (a, b).1 = k from he)]
      simp only [List.lookup]
      rw [beq_eq_false_iff_ne.mpr h,
        show (k' == a) = false from beq_eq_false_iff_ne.mpr (fun hx => h (hx.trans he))]
      exact ih
    · simp only [List.map_cons]
      rw [if_neg (show ¬ (a, b).1 = k from he)]
      simp only [List.lookup]
      cases hke : (k' == a) with
      | true => rfl
      | false => exact ih

theorem lookup_append_single_ne {k k' v : String} (h : k' ≠ k) :
    ∀ l : List (String × String), (l ++ [(k, v)]).lookup k' = l.lookup k' := by
  intro l
  induction l with
  | nil =>
    simp only [List.nil_append, List.lookup]
    rw [beq_eq_false_iff_ne.mpr h]
  | cons e es ih =>
    obtain ⟨a, b⟩ := e
    simp only [List.cons_append, List.lookup]
    cases hke : (k' == a) with
    | true => rfl
    | false => exact ih

theorem addEntry_lookup_ne {l : List (String × String)} {k k' v : String} (h : k' ≠ k) :
    (addEntry l k v).lookup k' = l.lookup k' := by
  unfold addEntry
  split
  · exact lookup_map_update_ne h l
  · exact lookup_append_single_ne h l

theorem lookup_map_update_self {k v : String} :
    ∀ l : List (String × String), (l.lookup k).isSome →
      (l.map (fun e => if e.1 = k then (k, v) else e)).lookup k = some v := by
  intro l
  induction l with
  | nil => intro h; exact absurd h (by simp)
  | cons e es ih =>
    intro h
    obtain ⟨a, b⟩ := e
    by_cases he : a = k
    · simp only [List.map_cons]
      rw [if_pos (show (a, b).1 = k from he)]
      simp [List.lookup]
    · simp only [List.map_cons]
      rw [if_neg (show ¬ (a, b).1 = k from he)]
      simp only [List.lookup] at h ⊢
      rw [beq_eq_false_iff_ne.mpr (fun hk => he hk.symm)] at h ⊢
      exact ih h

theorem lookup_append_single_self {k v : String} :
    ∀ l : List (String × String), l.lookup k = none →
      (l ++ [(k, v)]).lookup k = some v := by
  intro l
  induction l with
  | nil => simp [List.lookup]
  | cons e es ih =>
    intro h
    obtain ⟨a, b⟩ := e
    simp only [List.cons_append, List.lookup] at h ⊢
    cases hka : (k == a) with
    | true => rw [hka] at h; exact absurd h (by simp)
    | false => rw [hka] at h; exact ih h

/-- The updated entry is found. -/
theorem addEntry_lookup_self {l : List (String × String)} {k v : String} :
    (addEntry l k v).lookup k = some v := by
  unfold addEntry
  split
  · rename_i h
    exact lookup_map_update_self l h
  · rename_i h
    exact lookup_append_single_self l (Option.not_isSome_iff_eq_none.mp h)

/-- The fetch log grows by at most the fetched URL itself. -/
theorem downloadAndSave_fetchLog_mem {net : String → Option String} {u lp : String}
    {st : Store} {x : String} (h : x ∈ (downloadAndSave net u lp st).2.fetchLog) :
    x ∈ st.fetchLog ∨ x = u := by
  unfold downloadAndSave at h
  split at h
  · exact Or.inl h
  · split at h
    · exact Or.inl h
    · split at h
      · exact Or.inl h
      · split at h
        · simp only [List.mem_append, List.mem_singleton] at h
          exact h
        · simp only [List.mem_append, List.mem_singleton] at h
          exact h

theorem processAsset_data_free {net : String → Option String} {url : String}
    (hd : strStartsWith url "data:") (a : AState) (asset : String)
    (h1 : url ∉ a.downloaded) (h2 : a.urlToLocal.lookup url = none)
    (h3 : url ∉ a.store.fetchLog) :
    (processAsset net a asset).urlToLocal.lookup url = none ∧
    url ∉ (processAsset net a asset).downloaded ∧
    url ∉ (processAsset net a asset).store.fetchLog := by
  unfold processAsset
  split
  · exact ⟨h2, h1, h3⟩
  · split
    · exact ⟨h2, h1, h3⟩
    · rename_i lp hlp
      split
      · rename_i hmem
        have hne : url ≠ asset := fun h => h1 (h ▸ hmem)
        exact ⟨(addEntry_lookup_ne hne).trans h2, h1, h3⟩
      · rename_i hmem
        dsimp only
        have hlog : url ∉ (downloadAndSave net asset lp a.store).2.fetchLog := by
          intro hx
          rcases downloadAndSave_fetchLog_mem hx with hx1 | hx2
          · exact h3 hx1
          · by_cases hau : asset = url
            · subst hau
              rw [downloadAndSave_data hd net lp a.store] at hx
              exact h3 hx
            · exact hau hx2.symm
        split
        · rename_i hok
          have hne : url ≠ asset := by
            intro h
            subst h
            rw [downloadAndSave_data hd net lp a.store] at hok
            exact absurd hok (by simp)
          refine ⟨(addEntry_lookup_ne hne).trans h2, ?_, hlog⟩
          intro hx
          rcases List.mem_append.mp hx with hx1 | hx2
          · exact h1 hx1
          · exact hne (List.mem_singleton.mp hx2)
        · exact ⟨h2, h1, hlog⟩

theorem processAssets_data_free {net : String → Option String} {url : String}
    (hd : strStartsWith url "data:") :
    ∀ (assets : List String) (a : AState),
      url ∉ a.downloaded → a.urlToLocal.lookup url = none → url ∉ a.store.fetchLog →
      (processAssets net a assets).urlToLocal.lookup url = none ∧
      url ∉ (processAssets net a assets).downloaded ∧
      url ∉ (processAssets net a assets).store.fetchLog := by
  intro assets
  induction assets with
  | nil => intro a h1 h2 h3; exact ⟨h2, h1, h3⟩
  | cons asset rest ih =>
    intro a h1 h2 h3
    have hstep := @processAsset_data_free net url hd a asset h1 h2 h3
    exact ih (processAsset net a asset) hstep.2.1 hstep.1 hstep.2.2

/-! ## Frontier admission -/

theorem enqueueAnchors_cons_none {cfg : CrawlConfig} {nurl a : String}
    {visited : Finset String} {anchors : List String} {q : List String}
    (hadm : admitAnchor cfg nurl a = none) :
    enqueueAnchors cfg nurl visited (a :: anchors) q =
      enqueueAnchors cfg nurl visited anchors q := by
  unfold enqueueAnchors
  rw [List.foldl_cons]
  simp only [hadm]

theorem enqueueAnchors_cons_some {cfg : CrawlConfig} {nurl a norm : String}
    {visited : Finset String} {anchors : List String} {q : List String}
    (hadm : admitAnchor cfg nurl a = some norm) :
    enqueueAnchors cfg nurl visited (a :: anchors) q =
      enqueueAnchors cfg nurl visited anchors
        (if norm ∉ visited ∧ norm ∉ q then q ++ [norm] else q) := by
  unfold enqueueAnchors
  rw [List.foldl_cons]
  simp only [hadm]

theorem enqueueAnchors_mem (cfg : CrawlConfig) (nurl : String) (visited : Finset String) :
    ∀ (anchors q : List String) (u : String),
      u ∈ enqueueAnchors cfg nurl visited anchors q ↔
        u ∈ q ∨ ∃ a ∈ anchors, admitAnchor cfg nurl a = some u ∧ u ∉ visited := by
  intro anchors
  induction anchors with
  | nil =>
    intro q u
    simp [enqueueAnchors]
  | cons a anchors ih =>
    intro q u
    cases hadm : admitAnchor cfg nurl a with
    | none =>
      rw [enqueueAnchors_cons_none hadm, ih]
      constructor
      · rintro (hq | ⟨x, hx, hxa⟩)
        · exact Or.inl hq
        · exact Or.inr ⟨x, List.mem_cons_of_mem a hx, hxa⟩
      · rintro (hq | ⟨x, hx, hadm2, hvis⟩)
        · exact Or.inl hq
        · rcases List.mem_cons.mp hx with h | h
          · subst h; rw [hadm] at hadm2; exact absurd hadm2 (by simp)
          · exact Or.inr ⟨x, h, hadm2, hvis⟩
    | some norm =>
      rw [enqueueAnchors_cons_some hadm, ih]
      by_cases hc : norm ∉ visited ∧ norm ∉ q
      · rw [if_pos hc]
        constructor
        · rintro (hq | ⟨x, hx1, hx2⟩)
          · rcases List.mem_append.mp hq with h | h
            · exact Or.inl h
            · have hun : u = norm := List.mem_singleton.mp h
              subst hun
              exact Or.inr ⟨a, List.mem_cons_self a anchors, hadm, hc.1⟩
          · exact Or.inr ⟨x, List.mem_cons_of_mem a hx1, hx2⟩
        · rintro (hq | ⟨x, hx, hadm2, hvis⟩)
          · exact Or.inl (List.mem_append.mpr (Or.inl hq))
          · rcases List.mem_cons.mp hx with h | h
            · subst h
              rw [hadm] at hadm2
              have hnu : norm = u := Option.some.inj hadm2
              subst hnu
              exact Or.inl (List.mem_append.mpr (Or.inr (List.mem_singleton.mpr rfl)))
            · exact Or.inr ⟨x, h, hadm2, hvis⟩
      · rw [if_neg hc]
        constructor
        · rintro (hq | ⟨x, hx1, hx2⟩)
          · exact Or.inl hq
          · exact Or.inr ⟨x, List.mem_cons_of_mem a hx1, hx2⟩
        · rintro (hq | ⟨x, hx, hadm2, hvis⟩)
          · exact Or.inl hq
          · rcases List.mem_cons.mp hx with h | h
            · subst h
              rw [hadm] at hadm2
              have hnu : norm = u := Option.some.inj hadm2
              subst hnu
              push_neg at hc
              exact Or.inl (hc hvis)
            · exact Or.inr ⟨x, h, hadm2, hvis⟩

theorem enqueueAnchors_nodup (cfg : CrawlConfig) (nurl : String) (visited : Finset String) :
    ∀ (anchors q : List String), q.Nodup →
      (enqueueAnchors cfg nurl visited anchors q).Nodup := by
  intro anchors
  induction anchors with
  | nil => intro q h; exact h
  | cons a anchors ih =>
    intro q h
    cases hadm : admitAnchor cfg nurl a with
    | none => rw [enqueueAnchors_cons_none hadm]; exact ih q h
    | some norm =>
      rw [enqueueAnchors_cons_some hadm]
      by_cases hc : norm ∉ visited ∧ norm ∉ q
      · rw [if_pos hc]
        apply ih
        rw [List.nodup_append]
        exact ⟨h, List.nodup_singleton norm,
          fun x hx hxn => hc.2 ((List.mem_singleton.mp hxn) ▸ hx)⟩
      · rw [if_neg hc]; exact ih q h

/-! ## The crawl loop: page cap and termination -/

theorem crawlStep_card_le (cfg : CrawlConfig) (outcome : String → VisitOutcome)
    (st : CrawlSt) :
    (crawlStep cfg outcome st).visited.card ≤ st.visited.card + 1 := by
  unfold crawlStep
  split
  · exact Nat.le_succ _
  · split
    · exact Nat.le_succ _
    · split
      · exact Nat.le_succ _
      · split
        · exact Finset.card_insert_le _ _
        · exact Finset.card_insert_le _ _

theorem crawlN_card_le (cfg : CrawlConfig) (outcome : String → VisitOutcome) :
    ∀ (n : Nat) (st : CrawlSt), st.visited.card ≤ cfg.maxPages →
      (crawlN cfg outcome n st).visited.card ≤ cfg.maxPages := by
  intro n
  induction n with
  | zero => intro st h; exact h
  | succ n ih =>
    intro st h
    unfold crawlN
    split
    · rename_i hg
      apply ih
      have h1 := crawlStep_card_le cfg outcome st
      have h2 := hg.2
      omega
    · exact h

theorem crawlN_stops (cfg : CrawlConfig) (outcome : String → VisitOutcome) :
    ∀ (d q : Nat) (st : CrawlSt), cfg.maxPages - st.visited.card ≤ d →
      st.toVisit.length ≤ q → ∃ n, ¬ crawlGuard cfg (crawlN cfg outcome n st) := by
  intro d
  induction d with
  | zero =>
    intro q st hd _
    refine ⟨0, fun hg => ?_⟩
    have h2 : st.visited.card < cfg.maxPages := hg.2
    omega
  | succ d ihd =>
    intro q
    induction q with
    | zero =>
      intro st _ hq
      refine ⟨0, fun hg => ?_⟩
      exact hg.1 (List.eq_nil_of_length_eq_zero (Nat.le_zero.mp hq))
    | succ q ihq =>
      intro st hd hq
      by_cases hg : crawlGuard cfg st
      · obtain ⟨hne, hlt⟩ := hg
        have hstep : ∀ st' : CrawlSt, crawlStep cfg outcome st = st' →
            (∃ n, ¬ crawlGuard cfg (crawlN cfg outcome n st')) →
            ∃ n, ¬ crawlGuard cfg (crawlN cfg outcome n st) := by
          rintro st' rfl ⟨n, hn⟩
          refine ⟨n + 1, ?_⟩
          unfold crawlN
          rw [if_pos ⟨hne, hlt⟩]
          exact hn
        cases hv : st.toVisit with
        | nil => exact absurd hv hne
        | cons url rest =>
          have hrest : rest.length ≤ q := by
            have hlen := congrArg List.length hv
            simp only [List.length_cons] at hlen
            omega
          cases hnorm : normalize cfg url with
          | none =>
            refine hstep ⟨rest, st.visited⟩ ?_ (ihq ⟨rest, st.visited⟩ hd hrest)
            unfold crawlStep
            simp only [hv, hnorm]
          | some nurl =>
            by_cases hvis : nurl ∈ st.visited
            · refine hstep ⟨rest, st.visited⟩ ?_ (ihq ⟨rest, st.visited⟩ hd hrest)
              unfold crawlStep
              simp only [hv, hnorm]
              rw [if_pos hvis]
            · have hcard : ∀ v : Finset String, v = insert nurl st.visited →
                  cfg.maxPages - v.card ≤ d := by
                rintro v rfl
                rw [Finset.card_insert_of_not_mem hvis]
                omega
              cases hout : outcome nurl with
              | err =>
                refine hstep ⟨rest, insert nurl st.visited⟩ ?_
                  (ihd rest.length ⟨rest, insert nurl st.visited⟩ (hcard _ rfl) (le_refl _))
                unfold crawlStep
                simp only [hv, hnorm]
                rw [if_neg hvis]
                simp only [hout]
              | ok anchors =>
                refine hstep
                  ⟨enqueueAnchors cfg nurl (insert nurl st.visited) anchors rest,
                    insert nurl st.visited⟩ ?_
                  (ihd _ _ (hcard _ rfl) (le_refl _))
                unfold crawlStep
                simp only [hv, hnorm]
                rw [if_neg hvis]
                simp only [hout]
      · exact ⟨0, hg⟩

/-! ## Claim C1: the HTML rewrite round trip -/

/-- C1 (counterexample): the rewrite loop is not the textual replacement the
claim describes.  With the single map entry `https://h/a ↦
/out/rendered-site/a` (relative path `a`) and rendered text
`https://h/https://h/a`, replacing the absolute URL re-creates the string
`https://h/a`, and the subsequent protocol-relative replacement (`//h/a`)
then mangles surrounding text, producing `https:a` — different from the
claim's described output, in which exactly the occurrences of the mapped
URL are replaced by its relative path. -/
theorem c1_rewrite_counterexample :
    rewriteLoop "/out/rendered-site/index.html"
        [("https://h/a", "/out/rendered-site/a")] "https://h/https://h/a".data =
      some "https:a".data ∧
    makeRelativeForHtml "/out/rendered-site/index.html" "/out/rendered-site/a" = "a" ∧
    "https:a".data ≠
      replaceAll "https://h/a".data "a".data "https://h/https://h/a".data := by
  exact ⟨by decide, by decide, by decide⟩

/-- C1 (amended): provided no computed relative replacement string
contains a dollar substitution pattern (so the raw string handed to
`replace` is inserted literally) and no mapped URL can overlap any of the
relative replacement strings (`noCross` for every pair: no URL occurs in a
replacement, no nonempty right part of a URL is a prefix of a replacement,
no nonempty suffix of a replacement is a prefix of a URL, no replacement
occurs strictly inside a URL, and replacements are nonempty), the rewrite
loop succeeds, zero occurrences of any mapped absolute URL remain in the
output, and the relative path computed for each entry resolves from the
HTML file's directory back to that entry's LocalPath. -/
theorem c1_rewrite_amended (htmlPath : String) (entries : List (String × String))
    (html : List Char)
    (hp : ∀ e ∈ entries, (parseURL e.1).isSome)
    (hds : ∀ e ∈ entries, noDollarPat (makeRelativeForHtml htmlPath e.2).data = true)
    (hcross : ∀ e ∈ entries, ∀ e' ∈ entries,
      noCross e.1.data (makeRelativeForHtml htmlPath e'.2).data)
    (hdots : ∀ e ∈ entries, ".." ∉ pathSegs e.2) :
    ∃ out, rewriteLoop htmlPath entries html = some out ∧
      (∀ e ∈ entries, ¬ e.1.data <:+: out) ∧
      (∀ e ∈ entries,
        resolveRelSegs (pathSegs (dirname htmlPath)) (relSegments (dirname htmlPath) e.2) =
          pathSegs e.2) := by
  obtain ⟨out, hout⟩ := rewriteLoop_total entries html hp
  refine ⟨out, hout, ?_, ?_⟩
  · intro e he
    exact rewriteLoop_kills entries html out e he (fun e' he' => hcross e he e' he')
      (fun e' he' => hds e' he') hout
  · intro e he
    exact relSegments_round (hdots e he)

theorem c1_rewrite_amended_witness :
    ∃ out, rewriteLoop "/out/rendered-site/salient/index.html"
        [("https://h/assets/img/a.png", "/out/rendered-site/assets/img/a.png")]
        "<img src=\"https://h/assets/img/a.png\">".data = some out ∧
      (∀ e ∈ [("https://h/assets/img/a.png", "/out/rendered-site/assets/img/a.png")],
        ¬ e.1.data <:+: out) ∧
      (∀ e ∈ [("https://h/assets/img/a.png", "/out/rendered-site/assets/img/a.png")],
        resolveRelSegs (pathSegs (dirname "/out/rendered-site/salient/index.html"))
          (relSegments (dirname "/out/rendered-site/salient/index.html") e.2) =
            pathSegs e.2) :=
  c1_rewrite_amended "/out/rendered-site/salient/index.html"
    [("https://h/assets/img/a.png", "/out/rendered-site/assets/img/a.png")]
    "<img src=\"https://h/assets/img/a.png\">".data
    (by decide) (by decide) (by decide) (by decide)

/-! ## Claim C3: the page cap -/

/-- C3: the visited set's cardinality never exceeds `maxPages`; the loop
always reaches a state where its guard fails; the guard fails exactly when
the queue is empty or the cardinality has reached `maxPages`; and on the
unbounded chain with `maxPages = 5`, exactly 5 pages are visited. -/
theorem c3_page_cap (cfg : CrawlConfig) (outcome : String → VisitOutcome) :
    (∀ (n : Nat) (st : CrawlSt), st.visited.card ≤ cfg.maxPages →
      (crawlN cfg outcome n st).visited.card ≤ cfg.maxPages) ∧
    (∀ st : CrawlSt, ∃ n : Nat, ¬ crawlGuard cfg (crawlN cfg outcome n st)) ∧
    (∀ (n : Nat) (st : CrawlSt), st.visited.card ≤ cfg.maxPages →
      ¬ crawlGuard cfg (crawlN cfg outcome n st) →
      (crawlN cfg outcome n st).toVisit = [] ∨
        (crawlN cfg outcome n st).visited.card = cfg.maxPages) ∧
    (crawlN chainCfg chainOutcome 5 ⟨["https://h/s/"], ∅⟩).visited.card = 5 ∧
    ¬ crawlGuard chainCfg (crawlN chainCfg chainOutcome 5 ⟨["https://h/s/"], ∅⟩) := by
  refine ⟨crawlN_card_le cfg outcome, ?_, ?_, by decide, by decide⟩
  · intro st
    exact crawlN_stops cfg outcome cfg.maxPages st.toVisit.length st (by omega) (le_refl _)
  · intro n st hc hng
    unfold crawlGuard at hng
    push_neg at hng
    by_cases he : (crawlN cfg outcome n st).toVisit = []
    · exact Or.inl he
    · right
      have h1 := hng he
      have h2 := crawlN_card_le cfg outcome n st hc
      omega

theorem c3_page_cap_witness :
    (crawlN chainCfg chainOutcome 7 ⟨["https://h/s/"], ∅⟩).visited.card ≤ chainCfg.maxPages ∧
    (crawlN chainCfg chainOutcome 5 ⟨["https://h/s/"], ∅⟩).visited.card = 5 :=
  ⟨(c3_page_cap chainCfg chainOutcome).1 7 ⟨["https://h/s/"], ∅⟩ (by decide),
   (c3_page_cap chainCfg chainOutcome).2.2.2.1⟩

/-! ## Claim C4: frontier admission -/

/-- C4: a URL is in the queue after the anchor loop iff it was already
pending, or some anchor resolves and normalizes to it with the start
hostname and the configured path prefix (that is `admitAnchor`) and it is
not in the visited set; and the queue stays duplicate-free, so a URL
already pending is never admitted again. -/
theorem c4_frontier_admission (cfg : CrawlConfig) (nurl : String) (visited : Finset String)
    (anchors q : List String) (hq : q.Nodup) :
    (∀ u, u ∈ enqueueAnchors cfg nurl visited anchors q ↔
      u ∈ q ∨ ∃ a ∈ anchors, admitAnchor cfg nurl a = some u ∧ u ∉ visited) ∧
    (enqueueAnchors cfg nurl visited anchors q).Nodup :=
  ⟨fun u => enqueueAnchors_mem cfg nurl visited anchors q u,
   enqueueAnchors_nodup cfg nurl visited anchors q hq⟩

theorem c4_frontier_admission_witness :
    (∀ u, u ∈ enqueueAnchors chainCfg "https://h/s/" {"https://h/s/"}
        ["https://h/s/a/", "/x/y", "https://other/s/b/", "https://h/s/", "https://h/s/a/"] [] ↔
      u ∈ ([] : List String) ∨
        ∃ a ∈ ["https://h/s/a/", "/x/y", "https://other/s/b/", "https://h/s/",
                "https://h/s/a/"],
          admitAnchor chainCfg "https://h/s/" a = some u ∧ u ∉ ({"https://h/s/"} : Finset String)) ∧
    (enqueueAnchors chainCfg "https://h/s/" {"https://h/s/"}
        ["https://h/s/a/", "/x/y", "https://other/s/b/", "https://h/s/", "https://h/s/a/"]
        []).Nodup :=
  c4_frontier_admission chainCfg "https://h/s/" {"https://h/s/"}
    ["https://h/s/a/", "/x/y", "https://other/s/b/", "https://h/s/", "https://h/s/a/"] []
    (by decide)

/-! ## Claim C8: failures are isolated, no retry -/

/-- C8: for a popped URL that normalizes to a fresh `nurl`, the step marks
`nurl` visited whether the visit succeeded or threw; on a throw nothing is
enqueued and the queue simply advances; the loop always continues with the
next state (one failing page never aborts the crawl); and a URL that is
already visited is dropped without any retry. -/
theorem c8_visit_failure_isolated (cfg : CrawlConfig) (outcome : String → VisitOutcome)
    (st : CrawlSt) (url nurl : String) (rest : List String)
    (hq : st.toVisit = url :: rest) (hn : normalize cfg url = some nurl)
    (hv : nurl ∉ st.visited) :
    (crawlStep cfg outcome st).visited = insert nurl st.visited ∧
    (outcome nurl = .err → crawlStep cfg outcome st = ⟨rest, insert nurl st.visited⟩) ∧
    (crawlGuard cfg st → ∀ n : Nat, crawlN cfg outcome (n + 1) st =
      crawlN cfg outcome n (crawlStep cfg outcome st)) ∧
    (∀ (st₂ : CrawlSt) (u₂ : String) (rest₂ : List String),
      st₂.toVisit = u₂ :: rest₂ → normalize cfg u₂ = some nurl → nurl ∈ st₂.visited →
      crawlStep cfg outcome st₂ = ⟨rest₂, st₂.visited⟩) := by
  refine ⟨?_, ?_, ?_, ?_⟩
  · unfold crawlStep
    simp only [hq, hn]
    rw [if_neg hv]
    cases outcome nurl <;> rfl
  · intro hout
    unfold crawlStep
    simp only [hq, hn]
    rw [if_neg hv]
    simp only [hout]
  · intro hg n
    conv_lhs => rw [crawlN]
    rw [if_pos hg]
  · intro st₂ u₂ rest₂ hq₂ hn₂ hv₂
    unfold crawlStep
    simp only [hq₂, hn₂]
    rw [if_pos hv₂]

theorem c8_visit_failure_isolated_witness :
    crawlStep chainCfg (fun _ => .err) ⟨["https://h/s/"], ∅⟩ =
      ⟨[], insert "https://h/s/" ∅⟩ :=
  (c8_visit_failure_isolated chainCfg (fun _ => .err) ⟨["https://h/s/"], ∅⟩
    "https://h/s/" "https://h/s/" [] rfl (by decide) (by decide)).2.1 rfl

/-! ## Claims C2 and C7: the CSS scan loop -/

/-- The success path of one `url(...)` match: the reference is resolved
against the stylesheet's own URL, downloaded, recorded in the download set
and the map, and the matched text replaced by `url(".. relative path ..")`. -/
theorem processCssMatch_success (net : String → Option String) (cssUrl cssLocal : String)
    (text : List Char) (a : AState) (m0 ref : List Char) (base u : URLRec) (lp : String)
    (hb : parseURL cssUrl = some base)
    (hr : ref ≠ [])
    (hres : resolveRef (String.mk ref) base = some u)
    (hnd : urlToString u ∉ a.downloaded)
    (hlp : urlToLocalPath (urlToString u) = some lp)
    (hok : (downloadAndSave net (urlToString u) lp a.store).1 = true) :
    processCssMatch net cssUrl cssLocal (text, a) (m0, ref) =
      (replaceAll m0
        ("url(\"" ++ segsToPath (relSegments (dirname cssLocal) lp) ++ "\")").data text,
       { store := (downloadAndSave net (urlToString u) lp a.store).2,
         downloaded := a.downloaded ++ [urlToString u],
         urlToLocal := addEntry a.urlToLocal (urlToString u) lp }) := by
  unfold processCssMatch
  dsimp only
  rw [if_neg hr]
  simp only [hb, hres]
  rw [if_neg hnd]
  simp only [hlp]
  rw [if_pos hok]

/-- A download attempt with nonempty arguments, a non-`data:` URL and a
reachable target succeeds (either the file already exists or the fetch is
answered). -/
theorem downloadAndSave_success (net : String → Option String) (url lp : String)
    (st : Store) (hu : url ≠ "") (hl : lp ≠ "")
    (hd : ¬ strStartsWith url "data:") (hn : net url ≠ none) :
    (downloadAndSave net url lp st).1 = true := by
  unfold downloadAndSave
  rw [if_neg (by simp [hu, hl]), if_neg hd]
  split
  · rfl
  · dsimp only
    cases hnet : net url with
    | none => exact absurd hnet hn
    | some body => rfl

/-- One match step never removes anything from the download set. -/
theorem processCssMatch_downloaded_mono (net : String → Option String)
    (cssUrl cssLocal : String) (acc : List Char × AState) (m : List Char × List Char)
    {x : String} (h : x ∈ acc.2.downloaded) :
    x ∈ (processCssMatch net cssUrl cssLocal acc m).2.downloaded := by
  unfold processCssMatch
  dsimp only
  split
  · exact h
  · split
    · exact h
    · split
      · exact h
      · split
        · split
          · exact h
          · exact h
        · split
          · exact h
          · split
            · exact List.mem_append.mpr (Or.inl h)
            · exact h

/-- One match step preserves the fold invariant: it only ever records a
path computed by `urlToLocalPath`, so the `abs ↦ lp` binding and the
provenance of every map entry survive. -/
theorem processCssMatch_inv (net : String → Option String) (cssUrl cssLocal : String)
    (a0 : AState) (abs lp : String) (hlp : urlToLocalPath abs = some lp)
    (acc : List Char × AState) (m : List Char × List Char)
    (h : CssInv a0 abs lp acc.2) :
    CssInv a0 abs lp (processCssMatch net cssUrl cssLocal acc m).2 := by
  unfold processCssMatch
  dsimp only
  split
  · exact h
  · split
    · exact h
    · split
      · exact h
      · split
        · split
          · exact h
          · exact h
        · split
          · exact h
          · split
            · rename_i u hres2 hnotmem hxs localFull heqloc hok
              dsimp only
              refine ⟨?_, ?_, ?_⟩
              · intro k v hkv
                by_cases hk : k = urlToString u
                · subst hk
                  rw [addEntry_lookup_self] at hkv
                  exact Or.inr ((Option.some.inj hkv) ▸ heqloc)
                · rw [addEntry_lookup_ne hk] at hkv
                  exact h.1 k v hkv
              · intro habs
                rcases List.mem_append.mp habs with hin | hnew
                · by_cases hk : abs = urlToString u
                  · subst hk
                    rw [addEntry_lookup_self]
                    rw [hlp] at heqloc
                    exact congrArg some (Option.some.inj heqloc).symm
                  · rw [addEntry_lookup_ne hk]
                    exact h.2.1 hin
                · have hk : abs = urlToString u := List.mem_singleton.mp hnew
                  subst hk
                  rw [addEntry_lookup_self]
                  rw [hlp] at heqloc
                  exact congrArg some (Option.some.inj heqloc).symm
              · intro x hx
                exact List.mem_append.mpr (Or.inl (h.2.2 x hx))
            · exact h

/-- The text effect of one match step: either the text is unchanged, or
every occurrence of the matched literal is replaced by the `url("...")`
text built from a recorded local path of one of the stylesheet's match
targets. -/
theorem processCssMatch_text_effect (net : String → Option String)
    (cssUrl cssLocal : String) (a0 : AState) {base : URLRec}
    (hb : parseURL cssUrl = some base)
    (acc : List Char × AState) (m : List Char × List Char)
    (hinv : ∀ k v, acc.2.urlToLocal.lookup k = some v →
      a0.urlToLocal.lookup k = some v ∨ urlToLocalPath k = some v) :
    (processCssMatch net cssUrl cssLocal acc m).1 = acc.1 ∨
    ∃ abs lp, abs ∈ matchTargets base [m] ∧
      (a0.urlToLocal.lookup abs = some lp ∨ urlToLocalPath abs = some lp) ∧
      (processCssMatch net cssUrl cssLocal acc m).1 =
        replaceAll m.1 (replTextFor cssLocal lp) acc.1 := by
  unfold processCssMatch
  dsimp only
  by_cases hr : m.2 = []
  · rw [if_pos hr]
    exact Or.inl rfl
  · rw [if_neg hr]
    simp only [hb]
    cases hres : resolveRef (String.mk m.2) base with
    | none => exact Or.inl rfl
    | some u =>
      dsimp only
      have hmem : urlToString u ∈ matchTargets base [m] := by
        unfold matchTargets
        refine List.mem_filterMap.mpr ⟨m, List.mem_singleton.mpr rfl, ?_⟩
        rw [if_neg hr, hres]
        rfl
      by_cases habs : urlToString u ∈ acc.2.downloaded
      · rw [if_pos habs]
        cases hlook : acc.2.urlToLocal.lookup (urlToString u) with
        | none => exact Or.inl rfl
        | some localFull =>
          exact Or.inr ⟨urlToString u, localFull, hmem,
            hinv (urlToString u) localFull hlook, rfl⟩
      · rw [if_neg habs]
        cases hloc : urlToLocalPath (urlToString u) with
        | none => exact Or.inl rfl
        | some localFull =>
          dsimp only
          split
          · exact Or.inr ⟨urlToString u, localFull, hmem, Or.inr hloc, rfl⟩
          · exact Or.inl rfl

/-- A target of one match is a target of any list containing it. -/
theorem matchTargets_mono {base : URLRec} {m : List Char × List Char}
    {ms : List (List Char × List Char)} (hm : m ∈ ms) {abs : String}
    (h : abs ∈ matchTargets base [m]) : abs ∈ matchTargets base ms := by
  unfold matchTargets at h ⊢
  rcases List.mem_filterMap.mp h with ⟨x, hx, hfx⟩
  rw [List.mem_singleton] at hx
  subst hx
  exact List.mem_filterMap.mpr ⟨x, hm, hfx⟩

/-- Reading off `cssNoCross` at one target and one recorded path. -/
theorem cssNoCross_spec {m0 : List Char} {cssLocal : String} {a0 : AState}
    {targets : List String}
    (h : cssNoCross m0 cssLocal a0 targets = true) {abs lp : String}
    (hmem : abs ∈ targets)
    (hlp : a0.urlToLocal.lookup abs = some lp ∨ urlToLocalPath abs = some lp) :
    noCross m0 (replTextFor cssLocal lp) := by
  unfold cssNoCross at h
  rw [List.all_eq_true] at h
  have h2 := h abs hmem
  rw [Bool.and_eq_true] at h2
  rcases hlp with hl | hl
  · have h3 := h2.1
    rw [hl] at h3
    exact of_decide_eq_true h3
  · have h3 := h2.2
    rw [hl] at h3
    exact of_decide_eq_true h3

/-- Processing the match of a handled target: a target already downloaded
(with its recorded path, by the invariant) or whose fetch is answered is
rewritten with `url("<relative path>")` and ends in the download set. -/
theorem processCssMatch_handled (net : String → Option String)
    (cssUrl cssLocal : String) (a0 : AState) (acc : List Char × AState)
    (m0 ref : List Char) (base u : URLRec) (lp : String)
    (hb : parseURL cssUrl = some base)
    (hr : ref ≠ [])
    (hres : resolveRef (String.mk ref) base = some u)
    (hlp : urlToLocalPath (urlToString u) = some lp)
    (hinv : CssInv a0 (urlToString u) lp acc.2)
    (hnet : urlToString u ∈ a0.downloaded ∨
      (¬ strStartsWith (urlToString u) "data:" ∧ net (urlToString u) ≠ none)) :
    (processCssMatch net cssUrl cssLocal acc (m0, ref)).1 =
      replaceAll m0 (replTextFor cssLocal lp) acc.1 ∧
    urlToString u ∈ (processCssMatch net cssUrl cssLocal acc (m0, ref)).2.downloaded := by
  unfold processCssMatch
  dsimp only
  rw [if_neg hr]
  simp only [hb, hres]
  by_cases habs : urlToString u ∈ acc.2.downloaded
  · rw [if_pos habs]
    have hlook := hinv.2.1 habs
    simp only [hlook]
    exact ⟨rfl, habs⟩
  · rw [if_neg habs]
    simp only [hlp]
    have hok : (downloadAndSave net (urlToString u) lp acc.2.store).1 = true := by
      rcases hnet with hin | ⟨hd, hn⟩
      · exact absurd (hinv.2.2 _ hin) habs
      · exact downloadAndSave_success net (urlToString u) lp acc.2.store
          (urlToLocalPath_url_ne_empty hlp) (urlToLocalPath_lp_ne_empty hlp) hd hn
    rw [if_pos hok]
    exact ⟨rfl, List.mem_append.mpr (Or.inr (List.mem_singleton.mpr rfl))⟩

/-- The invariant survives the whole fold. -/
theorem cssFold_inv (net : String → Option String) (cssUrl cssLocal : String)
    (a0 : AState) (abs lp : String) (hlp : urlToLocalPath abs = some lp) :
    ∀ (ms : List (List Char × List Char)) (acc : List Char × AState),
      CssInv a0 abs lp acc.2 →
      CssInv a0 abs lp ((ms.foldl (processCssMatch net cssUrl cssLocal) acc)).2 := by
  intro ms
  induction ms with
  | nil => intro acc h; exact h
  | cons m rest ih =>
    intro acc h
    rw [List.foldl_cons]
    exact ih _ (processCssMatch_inv net cssUrl cssLocal a0 abs lp hlp acc m h)

/-- Once the matched literal is gone and the target downloaded, the rest of
the fold (whose replacement texts are all overlap-free with it) keeps both
facts. -/
theorem cssFold_post (net : String → Option String) (cssUrl cssLocal : String)
    (a0 : AState) (abs lp : String) (m0 : List Char) (base : URLRec)
    (hb : parseURL cssUrl = some base)
    (hlp : urlToLocalPath abs = some lp)
    (msAll : List (List Char × List Char))
    (hcr : cssNoCross m0 cssLocal a0 (matchTargets base msAll) = true) :
    ∀ (ms : List (List Char × List Char)) (acc : List Char × AState),
      (∀ m ∈ ms, m ∈ msAll) → CssInv a0 abs lp acc.2 →
      ¬ m0 <:+: acc.1 → abs ∈ acc.2.downloaded →
      ¬ m0 <:+: (ms.foldl (processCssMatch net cssUrl cssLocal) acc).1 ∧
        abs ∈ (ms.foldl (processCssMatch net cssUrl cssLocal) acc).2.downloaded := by
  intro ms
  induction ms with
  | nil => intro acc _ _ h1 h2; exact ⟨h1, h2⟩
  | cons m rest ih =>
    intro acc hsub hinv htext habs
    rw [List.foldl_cons]
    refine ih (processCssMatch net cssUrl cssLocal acc m)
      (fun m' h => hsub m' (List.mem_cons_of_mem m h))
      (processCssMatch_inv net cssUrl cssLocal a0 abs lp hlp acc m hinv) ?_
      (processCssMatch_downloaded_mono net cssUrl cssLocal acc m habs)
    rcases processCssMatch_text_effect net cssUrl cssLocal a0 hb acc m hinv.1 with
      heq | ⟨abs', lp', hmem, hlp', heqtext⟩
    · rw [heq]
      exact htext
    · rw [heqtext]
      have habs' : abs' ∈ matchTargets base msAll :=
        matchTargets_mono (hsub m (List.mem_cons_self m rest)) hmem
      exact not_inf_replaceAll_other' (cssNoCross_spec hcr habs' hlp') htext

/-- C2 (counterexample): a stylesheet reachable only through a `url(...)`
reference inside another stylesheet is downloaded, but it is NOT scanned
for its own `url(...)` references and NOT rewritten: after the scan loop,
`inner.css` is saved verbatim (still containing the literal
`url(deep.png)`), and `deep.png` is neither fetched nor downloaded — while
the page-level `a.css` was rewritten.  The scan list is the snapshot of
`urlToLocal` taken before the loop. -/
theorem c2_css_recursion_counterexample :
    ("https://h/css/inner.css" ∈ (cssScanLoop c2net c2state).downloaded) ∧
    ((cssScanLoop c2net c2state).store.files.lookup "/out/rendered-site/css/inner.css" =
      some "q:url(deep.png);") ∧
    ("https://h/css/deep.png" ∉ (cssScanLoop c2net c2state).downloaded) ∧
    ("https://h/css/deep.png" ∉ (cssScanLoop c2net c2state).store.fetchLog) ∧
    ((cssScanLoop c2net c2state).store.files.lookup "/out/rendered-site/css/a.css" =
      some "b:url(\"inner.css\");") :=
  ⟨by decide, by decide, by decide, by decide, by decide⟩

/-- C2 (amended): one level of the recursion holds — each nonempty
`url(...)` reference of a page-discovered stylesheet is resolved against
the stylesheet's own URL (`parseURL cssUrl`), subjected to the download
contract, and on success recorded in the download set and the per-page map,
with the matched text rewritten to a relative reference; a stylesheet
discovered this way is not itself scanned (see the counterexample). -/
theorem c2_css_one_level_amended (net : String → Option String) (cssUrl cssLocal : String)
    (text : List Char) (a : AState) (m0 ref : List Char) (base u : URLRec) (lp : String)
    (hb : parseURL cssUrl = some base)
    (hr : ref ≠ [])
    (hres : resolveRef (String.mk ref) base = some u)
    (hnd : urlToString u ∉ a.downloaded)
    (hlp : urlToLocalPath (urlToString u) = some lp)
    (hok : (downloadAndSave net (urlToString u) lp a.store).1 = true) :
    (processCssMatch net cssUrl cssLocal (text, a) (m0, ref)).2.downloaded =
        a.downloaded ++ [urlToString u] ∧
    (processCssMatch net cssUrl cssLocal (text, a) (m0, ref)).2.urlToLocal =
        addEntry a.urlToLocal (urlToString u) lp ∧
    (processCssMatch net cssUrl cssLocal (text, a) (m0, ref)).1 =
        replaceAll m0
          ("url(\"" ++ segsToPath (relSegments (dirname cssLocal) lp) ++ "\")").data text := by
  rw [processCssMatch_success net cssUrl cssLocal text a m0 ref base u lp
    hb hr hres hnd hlp hok]
  exact ⟨rfl, rfl, rfl⟩

theorem c2_css_one_level_amended_witness :
    (processCssMatch c2net "https://h/css/a.css" "/out/rendered-site/css/a.css"
        ("b:url(inner.css);".data, c2state) ("url(inner.css)".data, "inner.css".data)).2.downloaded =
      c2state.downloaded ++ ["https://h/css/inner.css"] ∧
    (processCssMatch c2net "https://h/css/a.css" "/out/rendered-site/css/a.css"
        ("b:url(inner.css);".data, c2state)
        ("url(inner.css)".data, "inner.css".data)).2.urlToLocal =
      addEntry c2state.urlToLocal "https://h/css/inner.css" "/out/rendered-site/css/inner.css" ∧
    (processCssMatch c2net "https://h/css/a.css" "/out/rendered-site/css/a.css"
        ("b:url(inner.css);".data, c2state) ("url(inner.css)".data, "inner.css".data)).1 =
      replaceAll "url(inner.css)".data
        ("url(\"" ++ segsToPath (relSegments (dirname "/out/rendered-site/css/a.css")
          "/out/rendered-site/css/inner.css") ++ "\")").data "b:url(inner.css);".data :=
  c2_css_one_level_amended c2net "https://h/css/a.css" "/out/rendered-site/css/a.css"
    "b:url(inner.css);".data c2state "url(inner.css)".data "inner.css".data
    ⟨"https", true, "h", "/css/a.css", "", ""⟩
    ⟨"https", true, "h", "/css/inner.css", "", ""⟩
    "/out/rendered-site/css/inner.css"
    (by decide) (by decide) (by decide) (by decide) (by decide) (by decide)

/-- C7 (counterexample): a `url(...)` reference found in a scanned
stylesheet is NOT unconditionally downloaded and rewritten: when the fetch
fails, the target stays un-downloaded (though it was attempted, as the
fetch log shows) and the saved stylesheet still contains the original
literal `url(img/x.png)`. -/
theorem c7_fetch_failure_counterexample :
    ((cssScanLoop c7net c7state).store.files.lookup "/out/rendered-site/css/b.css" =
      some "s:url(img/x.png);") ∧
    ("https://h/css/img/x.png" ∉ (cssScanLoop c7net c7state).downloaded) ∧
    ("https://h/css/img/x.png" ∈ (cssScanLoop c7net c7state).store.fetchLog) :=
  ⟨by decide, by decide, by decide⟩

/-- C7 (amended): for every `url(...)` match of a scanned stylesheet whose
nonempty reference resolves against the stylesheet's own URL, if the target
is already downloaded (with its recorded local path agreeing with the path
mapper) or its fetch is answered, then after the whole scan of that
stylesheet the target is in the download set and the saved stylesheet text
contains no occurrence of the matched literal: at its own step every
occurrence was replaced by `url("<path relative to the stylesheet's
directory>")`, and the later steps (whose replacement texts satisfy the
non-overlap conditions `cssNoCross`) cannot re-create it.  A failing fetch
instead can leave the literal in place (see the counterexample). -/
theorem c7_css_ref_rewrite_amended (net : String → Option String)
    (cssUrl cssLocal : String) (content : String) (a : AState)
    (m0 ref : List Char) (base u : URLRec) (lp : String)
    (ha1 : a.urlToLocal.lookup cssUrl = some cssLocal)
    (ha2 : a.store.files.lookup cssLocal = some content)
    (hb : parseURL cssUrl = some base)
    (hm : (m0, ref) ∈ cssMatches content.data)
    (hr : ref ≠ [])
    (hres : resolveRef (String.mk ref) base = some u)
    (hlp : urlToLocalPath (urlToString u) = some lp)
    (hgood : urlToString u ∈ a.downloaded →
      a.urlToLocal.lookup (urlToString u) = some lp)
    (hnet : urlToString u ∈ a.downloaded ∨
      (¬ strStartsWith (urlToString u) "data:" ∧ net (urlToString u) ≠ none))
    (hcr : cssNoCross m0 cssLocal a (matchTargets base (cssMatches content.data)) = true) :
    urlToString u ∈ (processCss net a cssUrl).downloaded ∧
    (∃ t : List Char,
      (processCss net a cssUrl).store.files.lookup cssLocal = some (String.mk t) ∧
      ¬ m0 <:+: t) ∧
    (∃ pre post, cssMatches content.data = pre ++ (m0, ref) :: post ∧
      (processCssMatch net cssUrl cssLocal
          (pre.foldl (processCssMatch net cssUrl cssLocal) (content.data, a))
          (m0, ref)).1 =
        replaceAll m0 (replTextFor cssLocal lp)
          (pre.foldl (processCssMatch net cssUrl cssLocal) (content.data, a)).1) := by
  obtain ⟨pre, post, hsplit⟩ := List.append_of_mem hm
  have hinv0 : CssInv a (urlToString u) lp a :=
    ⟨fun k v h => Or.inl h, hgood, fun x hx => hx⟩
  have hinv1 : CssInv a (urlToString u) lp
      ((pre.foldl (processCssMatch net cssUrl cssLocal) (content.data, a)).2) :=
    cssFold_inv net cssUrl cssLocal a (urlToString u) lp hlp pre (content.data, a) hinv0
  have hstep := processCssMatch_handled net cssUrl cssLocal a
    (pre.foldl (processCssMatch net cssUrl cssLocal) (content.data, a)) m0 ref base u lp
    hb hr hres hlp hinv1 hnet
  have hmem0 : urlToString u ∈ matchTargets base (cssMatches content.data) := by
    unfold matchTargets
    refine List.mem_filterMap.mpr ⟨(m0, ref), hm, ?_⟩
    rw [if_neg hr, hres]
    rfl
  have hnc : noCross m0 (replTextFor cssLocal lp) :=
    cssNoCross_spec hcr hmem0 (Or.inr hlp)
  have hkill : ¬ m0 <:+: (processCssMatch net cssUrl cssLocal
      (pre.foldl (processCssMatch net cssUrl cssLocal) (content.data, a)) (m0, ref)).1 := by
    rw [hstep.1]
    exact not_inf_replaceAll_self' hnc _
  have hinv2 := processCssMatch_inv net cssUrl cssLocal a (urlToString u) lp hlp
    (pre.foldl (processCssMatch net cssUrl cssLocal) (content.data, a)) (m0, ref) hinv1
  have hpost := cssFold_post net cssUrl cssLocal a (urlToString u) lp m0 base hb hlp
    (cssMatches content.data) hcr post
    (processCssMatch net cssUrl cssLocal
      (pre.foldl (processCssMatch net cssUrl cssLocal) (content.data, a)) (m0, ref))
    (fun m' h => by
      rw [hsplit]
      exact List.mem_append.mpr (Or.inr (List.mem_cons_of_mem _ h)))
    hinv2 hkill hstep.2
  refine ⟨?_, ?_, pre, post, hsplit, hstep.1⟩
  · unfold processCss
    simp only [ha1, ha2]
    rw [hsplit, List.foldl_append, List.foldl_cons]
    exact hpost.2
  · unfold processCss
    simp only [ha1, ha2]
    rw [hsplit, List.foldl_append, List.foldl_cons]
    refine ⟨(post.foldl (processCssMatch net cssUrl cssLocal)
        (processCssMatch net cssUrl cssLocal
          (pre.foldl (processCssMatch net cssUrl cssLocal) (content.data, a))
          (m0, ref))).1, ?_, hpost.1⟩
    simp [List.lookup]

theorem c7_css_ref_rewrite_amended_witness :
    "https://h/css/known.png" ∈
      (processCss c7netB c7stateB "https://h/css/b.css").downloaded ∧
    (∃ t : List Char,
      (processCss c7netB c7stateB "https://h/css/b.css").store.files.lookup
        "/out/rendered-site/css/b.css" = some (String.mk t) ∧
      ¬ "url(known.png)".data <:+: t) ∧
    (∃ pre post,
      cssMatches "s:url(known.png);t:url(img/x.png);".data =
        pre ++ ("url(known.png)".data, "known.png".data) :: post ∧
      (processCssMatch c7netB "https://h/css/b.css" "/out/rendered-site/css/b.css"
          (pre.foldl (processCssMatch c7netB "https://h/css/b.css"
            "/out/rendered-site/css/b.css")
            ("s:url(known.png);t:url(img/x.png);".data, c7stateB))
          ("url(known.png)".data, "known.png".data)).1 =
        replaceAll "url(known.png)".data
          (replTextFor "/out/rendered-site/css/b.css" "/out/rendered-site/css/known.png")
          (pre.foldl (processCssMatch c7netB "https://h/css/b.css"
            "/out/rendered-site/css/b.css")
            ("s:url(known.png);t:url(img/x.png);".data, c7stateB)).1) :=
  c7_css_ref_rewrite_amended c7netB "https://h/css/b.css"
    "/out/rendered-site/css/b.css" "s:url(known.png);t:url(img/x.png);" c7stateB
    "url(known.png)".data "known.png".data
    ⟨"https", true, "h", "/css/b.css", "", ""⟩
    ⟨"https", true, "h", "/css/known.png", "", ""⟩
    "/out/rendered-site/css/known.png"
    (by decide) (by decide) (by decide) (by decide) (by decide) (by decide)
    (by decide) (by decide) (by decide) (by decide)

/-! ## Claim C6: counterexample and witness -/

/-- C6 (counterexample): for a `data:` URL with a file already present at
its computed local path, and a working network, `downloadAndSave` returns
`false` — the `data:` rejection precedes the skip-if-exists success, so the
claim's "returns success whenever the file exists" fails as stated. -/
theorem c6_data_exists_counterexample :
    urlToLocalPath "data:x/y,z" = some "/out/rendered-site/x/y,z" ∧
    ((Store.mk [("/out/rendered-site/x/y,z", "old")] []).files.lookup
      "/out/rendered-site/x/y,z").isSome = true ∧
    downloadAndSave (fun _ => some "body") "data:x/y,z" "/out/rendered-site/x/y,z"
        (Store.mk [("/out/rendered-site/x/y,z", "old")] []) =
      (false, Store.mk [("/out/rendered-site/x/y,z", "old")] []) :=
  ⟨by decide, by decide, by decide⟩

theorem downloadAndSave_idempotent_witness :
    downloadAndSave (fun _ => some "BODY") "https://h/img/a.png"
        "/out/rendered-site/img/a.png"
        (Store.mk [("/out/rendered-site/img/a.png", "OLD")] []) =
      (true, Store.mk [("/out/rendered-site/img/a.png", "OLD")] []) :=
  (downloadAndSave_idempotent (fun _ => some "BODY") "https://h/img/a.png"
      "/out/rendered-site/img/a.png" (Store.mk [("/out/rendered-site/img/a.png", "OLD")] [])
      (by decide) (by decide)).1 (by decide)

/-! ## Claim C9 -/

/-- C9: a URL beginning with `data:` is rejected unconditionally by
`downloadAndSave` — no fetch, no write, state unchanged, result `false` —
and throughout the per-page asset loop it never enters `assetsDownloaded`,
never enters the per-page `urlToLocal` map, and never appears in the fetch
log. -/
theorem c9_data_urls_rejected (net : String → Option String) (url : String)
    (hd : strStartsWith url "data:") :
    (∀ (lp : String) (st : Store), downloadAndSave net url lp st = (false, st)) ∧
    (∀ (assets : List String) (a : AState),
      url ∉ a.downloaded → a.urlToLocal.lookup url = none → url ∉ a.store.fetchLog →
      (processAssets net a assets).urlToLocal.lookup url = none ∧
      url ∉ (processAssets net a assets).downloaded ∧
      url ∉ (processAssets net a assets).store.fetchLog) :=
  ⟨fun lp st => downloadAndSave_data hd net lp st,
   fun assets a => @processAssets_data_free net url hd assets a⟩

theorem c9_data_urls_rejected_witness :
    downloadAndSave (fun _ => some "x") "data:text/plain,hi" "/p" (Store.mk [] []) =
      (false, Store.mk [] []) ∧
    (processAssets (fun _ => some "x") (AState.mk (Store.mk [] []) [] [])
        ["data:text/plain,hi"]).urlToLocal.lookup "data:text/plain,hi" = none :=
  ⟨(c9_data_urls_rejected (fun _ => some "x") "data:text/plain,hi" (by decide)).1
      "/p" (Store.mk [] []),
   ((c9_data_urls_rejected (fun _ => some "x") "data:text/plain,hi" (by decide)).2
      ["data:text/plain,hi"] (AState.mk (Store.mk [] []) [] [])
      (by decide) (by decide) (by decide)).1⟩

/-! ## Claims C5 and C10: witnesses -/

theorem urlToLocalPath_query_distinct_witness :
    ∃ l1 l2, urlToLocalPath "https://h/x?a=1" = some l1 ∧
      urlToLocalPath "https://h/x?b=2" = some l2 ∧ l1 ≠ l2 :=
  urlToLocalPath_query_distinct "https://h/x?a=1" "https://h/x?b=2"
    ⟨"https", true, "h", "/x", "?a=1", ""⟩ ⟨"https", true, "h", "/x", "?b=2", ""⟩ "/x"
    (by decide) (by decide) (by decide) (by decide) (by decide) (by decide)
    (by decide) (by decide)

theorem urlToLocalPath_ext_query_dropped_witness :
    urlToLocalPath "https://h/a.png?v=1" = urlToLocalPath "https://h/a.png?v=2" ∧
    downloadAndSave (fun _ => some "B") "https://h/a.png?v=2" "/out/rendered-site/a.png"
        (Store.mk [("/out/rendered-site/a.png", "B")] ["https://h/a.png?v=1"]) =
      (true, Store.mk [("/out/rendered-site/a.png", "B")] ["https://h/a.png?v=1"]) := by
  have h := urlToLocalPath_ext_query_dropped "https://h/a.png?v=1" "https://h/a.png?v=2"
    ⟨"https", true, "h", "/a.png", "?v=1", ""⟩ ⟨"https", true, "h", "/a.png", "?v=2", ""⟩
    "/a.png" (by decide) (by decide) (by decide) (by decide) (by decide) (by decide)
    (by decide)
  exact ⟨h.1, h.2 (fun _ => some "B") "/out/rendered-site/a.png" (Store.mk [] [])
    (Store.mk [("/out/rendered-site/a.png", "B")] ["https://h/a.png?v=1"])
    (by decide) (by decide)⟩

end SaveRendered
